import Mathlib

/-!
# Verification of the `ssskit` Shamir Secret Sharing library

Shallow embedding of the crate's data model and algorithms:

* `field.rs` is not part of the provided sources; the GF(2^8) arithmetic is
  modelled from the specification (§4.1): addition/subtraction are XOR,
  multiplication is a carry-less product followed by the bit-walk reduction
  modulo `POLY`, the inverse of a nonzero element is `a ^ 254` by repeated
  squaring, and division is `a * b⁻¹`.
* `share.rs`, `math.rs` and `lib.rs` are embedded from the source.

The development first proves that the spec-modelled arithmetic is a field
(for a concrete irreducible `POLY` such as 0x11B = 283), then uses Mathlib's
Lagrange interpolation to settle the round-trip and resharing claims.
-/

namespace Ssskit

/-! ## GF(2^8) arithmetic, modelled from the spec (field.rs is absent)

All arithmetic is first developed on `Nat` (`clmul`, `polyReduce`, `nmul`,
`ninv`), then packaged into the byte-sized carrier `GF256`.
-/

/-- Modelled from the spec: carry-less multiplication accumulator.
`clmulAux a b n` is the XOR of `a <<< i` over the set bits `i < n` of `b`. -/
def clmulAux (a b : Nat) : Nat → Nat
  | 0 => 0
  | i + 1 => clmulAux a b i ^^^ (if b.testBit i then a <<< i else 0)

/-- Modelled from the spec: "carry-less multiplication of the two bytes
producing up to a 15-bit intermediate". -/
def clmul (a b : Nat) : Nat := clmulAux a b 8

/-- Modelled from the spec: one step of the reduction bit-walk: "if bit i is
set, XOR in `POLY <<< (i−8)`". -/
def reduceStep (P p : Nat) (i : Nat) : Nat :=
  if p.testBit i then p ^^^ (P <<< (i - 8)) else p

/-- Modelled from the spec: "for the intermediate value `p`, iterate i from 14
down to 8 and, if bit i is set, XOR in `POLY << (i−8)`". -/
def polyReduce (P p : Nat) : Nat :=
  [14, 13, 12, 11, 10, 9, 8].foldl (reduceStep P) p

/-- Nat-level GF(2^8) multiplication: reduce the carry-less product. -/
def nmul (P a b : Nat) : Nat := polyReduce P (clmul a b)

/-- Nat-level squaring. -/
def nsq (P a : Nat) : Nat := nmul P a a

/-- Modelled from the spec: `a⁻¹ = a ^ 254` "implemented by repeated squaring"
(exponent chain 1, 3, 7, 15, 31, 63, 127, 254). -/
def ninv (P a : Nat) : Nat :=
  let x3 := nmul P (nsq P a) a
  let x7 := nmul P (nsq P x3) a
  let x15 := nmul P (nsq P x7) a
  let x31 := nmul P (nsq P x15) a
  let x63 := nmul P (nsq P x31) a
  let x127 := nmul P (nsq P x63) a
  nsq P x127

/-! ### Linearity of the carry-less product and of the reduction -/

theorem xor_left_comm (a b c : Nat) : a ^^^ (b ^^^ c) = b ^^^ (a ^^^ c) := by
  rw [← Nat.xor_assoc, Nat.xor_comm a b, Nat.xor_assoc]

theorem xor_xor_self (a b : Nat) : a ^^^ (a ^^^ b) = b := by
  rw [← Nat.xor_assoc, Nat.xor_self, Nat.zero_xor]

theorem shiftLeft_xor (x y i : Nat) : (x ^^^ y) <<< i = (x <<< i) ^^^ (y <<< i) := by
  apply Nat.eq_of_testBit_eq
  intro j
  simp [Nat.testBit_shiftLeft, Nat.testBit_xor, Bool.and_xor_distrib_left]

theorem clmulAux_xor_left (x y b : Nat) :
    ∀ n, clmulAux (x ^^^ y) b n = clmulAux x b n ^^^ clmulAux y b n := by
  intro n
  induction n with
  | zero => simp [clmulAux]
  | succ n ih =>
    simp only [clmulAux, ih, shiftLeft_xor]
    by_cases h : b.testBit n <;>
      simp [h, Nat.xor_assoc, Nat.xor_comm, xor_left_comm]

theorem clmulAux_xor_right (a x y : Nat) :
    ∀ n, clmulAux a (x ^^^ y) n = clmulAux a x n ^^^ clmulAux a y n := by
  intro n
  induction n with
  | zero => simp [clmulAux]
  | succ n ih =>
    simp only [clmulAux, ih, Nat.testBit_xor]
    by_cases hx : x.testBit n <;> by_cases hy : y.testBit n <;>
      simp [hx, hy, Nat.xor_assoc, Nat.xor_comm, xor_left_comm, xor_xor_self]

theorem clmul_xor_left (x y b : Nat) : clmul (x ^^^ y) b = clmul x b ^^^ clmul y b :=
  clmulAux_xor_left x y b 8

theorem clmul_xor_right (a x y : Nat) : clmul a (x ^^^ y) = clmul a x ^^^ clmul a y :=
  clmulAux_xor_right a x y 8

theorem clmulAux_zero_left (b : Nat) : ∀ n, clmulAux 0 b n = 0 := by
  intro n
  induction n with
  | zero => rfl
  | succ n ih => simp [clmulAux, ih, Nat.shiftLeft_eq]

theorem clmulAux_zero_right (a : Nat) : ∀ n, clmulAux a 0 n = 0 := by
  intro n
  induction n with
  | zero => rfl
  | succ n ih => simp [clmulAux, ih]

theorem clmul_zero_left (b : Nat) : clmul 0 b = 0 := clmulAux_zero_left b 8

theorem clmul_zero_right (a : Nat) : clmul a 0 = 0 := clmulAux_zero_right a 8

theorem reduceStep_xor (P x y i : Nat) :
    reduceStep P (x ^^^ y) i = reduceStep P x i ^^^ reduceStep P y i := by
  simp only [reduceStep, Nat.testBit_xor]
  by_cases hx : x.testBit i <;> by_cases hy : y.testBit i <;>
    simp [hx, hy, Nat.xor_assoc, Nat.xor_comm, xor_left_comm, xor_xor_self]

theorem foldl_reduceStep_xor (P : Nat) (l : List Nat) :
    ∀ x y, l.foldl (reduceStep P) (x ^^^ y)
      = l.foldl (reduceStep P) x ^^^ l.foldl (reduceStep P) y := by
  induction l with
  | nil => intro x y; rfl
  | cons i l ih => intro x y; simp only [List.foldl, reduceStep_xor, ih]

theorem polyReduce_xor (P x y : Nat) :
    polyReduce P (x ^^^ y) = polyReduce P x ^^^ polyReduce P y :=
  foldl_reduceStep_xor P _ x y

theorem reduceStep_zero (P i : Nat) : reduceStep P 0 i = 0 := by
  simp [reduceStep]

theorem polyReduce_zero (P : Nat) : polyReduce P 0 = 0 := by
  simp [polyReduce, List.foldl, reduceStep_zero]

theorem nmul_xor_left (P x y b : Nat) :
    nmul P (x ^^^ y) b = nmul P x b ^^^ nmul P y b := by
  simp [nmul, clmul_xor_left, polyReduce_xor]

theorem nmul_xor_right (P a x y : Nat) :
    nmul P a (x ^^^ y) = nmul P a x ^^^ nmul P a y := by
  simp [nmul, clmul_xor_right, polyReduce_xor]

theorem nmul_zero_left (P b : Nat) : nmul P 0 b = 0 := by
  simp [nmul, clmul_zero_left, polyReduce_zero]

theorem nmul_zero_right (P a : Nat) : nmul P a 0 = 0 := by
  simp [nmul, clmul_zero_right, polyReduce_zero]

/-! ### Bounds: the carry-less product is 15-bit, the reduction is 8-bit -/

theorem clmulAux_lt (a b : Nat) (ha : a < 2 ^ 8) :
    ∀ n, clmulAux a b n < 2 ^ (7 + n) := by
  intro n
  induction n with
  | zero => simp [clmulAux]
  | succ n ih =>
    have hexp : 7 + (n + 1) = 8 + n := by omega
    rw [show clmulAux a b (n + 1) = clmulAux a b n ^^^ (if b.testBit n then a <<< n else 0)
      from rfl, hexp]
    have hterm : (if b.testBit n then a <<< n else 0) < 2 ^ (8 + n) := by
      by_cases h : b.testBit n
      · simp only [h, if_true, Nat.shiftLeft_eq]
        calc a * 2 ^ n < 2 ^ 8 * 2 ^ n :=
              (Nat.mul_lt_mul_right (Nat.pos_pow_of_pos n (by omega))).mpr ha
          _ = 2 ^ (8 + n) := by rw [Nat.pow_add]
      · simp only [h, if_false]
        exact Nat.pos_pow_of_pos (8 + n) (by omega)
    exact Nat.xor_lt_two_pow
      (Nat.lt_of_lt_of_le ih (Nat.pow_le_pow_right (by omega) (by omega))) hterm

theorem clmul_lt (a b : Nat) (ha : a < 2 ^ 8) : clmul a b < 2 ^ 15 :=
  clmulAux_lt a b ha 8

theorem testBit_of_mem_Ico {P : Nat} (hlo : 2 ^ 8 ≤ P) (hhi : P < 2 ^ 9) :
    P.testBit 8 = true := by
  norm_num at hlo hhi
  have h1 : P / 2 ^ 8 = 1 := by norm_num; omega
  rw [Nat.testBit_to_div_mod, h1]
  rfl

theorem reduceStep_lt {P p i : Nat} (hlo : 2 ^ 8 ≤ P) (hhi : P < 2 ^ 9)
    (hi : 8 ≤ i) (hp : p < 2 ^ (i + 1)) : reduceStep P p i < 2 ^ i := by
  have hptop : ∀ j, i < j → p.testBit j = false := fun j hj =>
    Nat.testBit_lt_two_pow (Nat.lt_of_lt_of_le hp (Nat.pow_le_pow_right (by omega) hj))
  have hQtop : ∀ j, i < j → (P <<< (i - 8)).testBit j = false := by
    intro j hj
    have hle : i - 8 ≤ j := by omega
    have hbig : P < 2 ^ (j - (i - 8)) :=
      Nat.lt_of_lt_of_le hhi (Nat.pow_le_pow_right (by omega) (by omega))
    simp [Nat.testBit_shiftLeft, hle, Nat.testBit_lt_two_pow hbig]
  unfold reduceStep
  by_cases h : p.testBit i
  · rw [if_pos h]
    apply Nat.lt_pow_two_of_testBit
    intro j hj
    rw [Nat.testBit_xor]
    by_cases hji : j = i
    · subst hji
      have h1 : j - 8 ≤ j := by omega
      have h2 : j - (j - 8) = 8 := by omega
      simp [h, Nat.testBit_shiftLeft, h1, h2, testBit_of_mem_Ico hlo hhi]
    · have hij : i < j := by omega
      simp [hptop j hij, hQtop j hij]
  · rw [if_neg h]
    apply Nat.lt_pow_two_of_testBit
    intro j hj
    by_cases hji : j = i
    · subst hji; simpa using h
    · exact hptop j (by omega)

theorem polyReduce_lt {P p : Nat} (hlo : 2 ^ 8 ≤ P) (hhi : P < 2 ^ 9)
    (hp : p < 2 ^ 15) : polyReduce P p < 2 ^ 8 := by
  have h14 := reduceStep_lt hlo hhi (p := p) (i := 14) (by omega) hp
  have h13 := reduceStep_lt hlo hhi (i := 13) (by omega) h14
  have h12 := reduceStep_lt hlo hhi (i := 12) (by omega) h13
  have h11 := reduceStep_lt hlo hhi (i := 11) (by omega) h12
  have h10 := reduceStep_lt hlo hhi (i := 10) (by omega) h11
  have h9 := reduceStep_lt hlo hhi (i := 9) (by omega) h10
  have h8 := reduceStep_lt hlo hhi (i := 8) (by omega) h9
  simpa [polyReduce, List.foldl] using h8

theorem reduceStep_of_lt {P p i : Nat} (hi : 8 ≤ i) (hp : p < 2 ^ 8) :
    reduceStep P p i = p := by
  have : p.testBit i = false :=
    Nat.testBit_lt_two_pow (Nat.lt_of_lt_of_le hp (Nat.pow_le_pow_right (by omega) hi))
  simp [reduceStep, this]

theorem polyReduce_of_lt {P p : Nat} (hp : p < 2 ^ 8) : polyReduce P p = p := by
  simp [polyReduce, List.foldl, reduceStep_of_lt (by omega : (8:Nat) ≤ 14) hp,
    reduceStep_of_lt (by omega : (8:Nat) ≤ 13) hp,
    reduceStep_of_lt (by omega : (8:Nat) ≤ 12) hp,
    reduceStep_of_lt (by omega : (8:Nat) ≤ 11) hp,
    reduceStep_of_lt (by omega : (8:Nat) ≤ 10) hp,
    reduceStep_of_lt (by omega : (8:Nat) ≤ 9) hp,
    reduceStep_of_lt (by omega : (8:Nat) ≤ 8) hp]

theorem nmul_lt {P : Nat} (hlo : 2 ^ 8 ≤ P) (hhi : P < 2 ^ 9)
    {a : Nat} (b : Nat) (ha : a < 2 ^ 8) : nmul P a b < 2 ^ 8 :=
  polyReduce_lt hlo hhi (clmul_lt a b ha)

/-! ### Bit-decomposition induction: every byte is a XOR of powers of two -/

theorem xorInduction {w : Nat} {motive : Nat → Prop} (h0 : motive 0)
    (hstep : ∀ i, i < w → ∀ a, a < 2 ^ w → a.testBit i = false → motive a →
      motive (a ^^^ (1 <<< i))) :
    ∀ a, a < 2 ^ w → motive a := by
  intro a
  induction a using Nat.strong_induction_on with
  | _ a ih =>
    intro ha
    rcases eq_or_ne a 0 with rfl | hne
    · exact h0
    · have hlow : 2 ^ a.log2 ≤ a := Nat.log2_self_le hne
      have hhigh : a < 2 ^ (a.log2 + 1) := Nat.lt_log2_self
      have hiw : a.log2 < w := (Nat.log2_lt hne).mpr ha
      have hshift : (1 <<< a.log2 : Nat) = 2 ^ a.log2 := by
        rw [Nat.shiftLeft_eq, Nat.one_mul]
      have hbit : a.testBit a.log2 = true := by
        rw [Nat.testBit_to_div_mod]
        have hdiv : a / 2 ^ a.log2 = 1 := by
          apply Nat.div_eq_of_lt_le
          · simpa using hlow
          · have : 2 ^ (a.log2 + 1) = 2 * 2 ^ a.log2 := by ring
            omega
        rw [hdiv]
        rfl
      have ha'top : ∀ j, a.log2 ≤ j → (a ^^^ (1 <<< a.log2)).testBit j = false := by
        intro j hj
        rw [Nat.testBit_xor, hshift]
        by_cases hji : j = a.log2
        · subst hji
          simp [hbit]
        · have hlt : a.log2 < j := by omega
          have h1 : a.testBit j = false := Nat.testBit_lt_two_pow
            (Nat.lt_of_lt_of_le hhigh (Nat.pow_le_pow_right (by omega) hlt))
          have h2 : (2 ^ a.log2 : Nat).testBit j = false :=
            Nat.testBit_two_pow_of_ne (by omega)
          simp [h1, h2]
      have ha'lt : a ^^^ (1 <<< a.log2) < 2 ^ a.log2 :=
        Nat.lt_pow_two_of_testBit _ ha'top
      have ha'a : a ^^^ (1 <<< a.log2) < a := Nat.lt_of_lt_of_le ha'lt hlow
      have hm : motive (a ^^^ (1 <<< a.log2)) :=
        ih _ ha'a (Nat.lt_trans ha'a ha)
      have hb' : (a ^^^ (1 <<< a.log2)).testBit a.log2 = false := by
        rw [Nat.testBit_xor, hshift]
        simp [hbit]
      have hres := hstep a.log2 hiw _ (Nat.lt_trans ha'a ha) hb' hm
      rwa [Nat.xor_assoc, Nat.xor_self, Nat.xor_zero] at hres

theorem byteInduction {motive : Nat → Prop} (h0 : motive 0)
    (hstep : ∀ i, i < 8 → ∀ a, a < 256 → a.testBit i = false → motive a →
      motive (a ^^^ (1 <<< i))) :
    ∀ a, a < 256 → motive a := by
  intro a ha
  exact xorInduction (w := 8) h0
    (fun i hi a ha hbit hm => hstep i hi a (by norm_num at ha; exact ha) hbit hm)
    a (by norm_num; exact ha)

/-! ### Multiplication on basis elements -/

theorem clmulAux_one_shift (a j : Nat) :
    ∀ n, clmulAux a (1 <<< j) n = if j < n then a <<< j else 0 := by
  intro n
  induction n with
  | zero => simp [clmulAux]
  | succ n ih =>
    have htb : (1 <<< j : Nat).testBit n = decide (j = n) := by
      rw [Nat.shiftLeft_eq, Nat.one_mul, Nat.testBit_two_pow]
    rw [show clmulAux a (1 <<< j) (n + 1)
      = clmulAux a (1 <<< j) n ^^^ (if (1 <<< j : Nat).testBit n then a <<< n else 0)
      from rfl, ih, htb]
    by_cases hjn : j = n
    · subst hjn
      simp [Nat.lt_irrefl, Nat.lt_succ_self]
    · by_cases hlt : j < n
      · simp [hjn, hlt, show j < n + 1 by omega]
      · simp [hjn, hlt, show ¬ j < n + 1 by omega]

theorem clmul_one_shift (a j : Nat) (hj : j < 8) : clmul a (1 <<< j) = a <<< j := by
  rw [clmul, clmulAux_one_shift]
  simp [hj]

theorem clmul_one_right (a : Nat) : clmul a 1 = a := by
  have h := clmul_one_shift a 0 (by omega)
  simpa using h

theorem clmul_two_pow (i j : Nat) (hj : j < 8) :
    clmul (1 <<< i) (1 <<< j) = 1 <<< (i + j) := by
  rw [clmul_one_shift _ _ hj, Nat.shiftLeft_eq, Nat.shiftLeft_eq, Nat.shiftLeft_eq,
    Nat.one_mul, Nat.one_mul, Nat.pow_add]

theorem nmul_two_pow_comm (P i j : Nat) (hi : i < 8) (hj : j < 8) :
    nmul P (1 <<< i) (1 <<< j) = nmul P (1 <<< j) (1 <<< i) := by
  unfold nmul
  rw [clmul_two_pow _ _ hj, clmul_two_pow _ _ hi, Nat.add_comm]

/-! ### Commutativity and associativity of `nmul` on bytes -/

theorem nmul_one_shift_comm (P i : Nat) (hi : i < 8) :
    ∀ b, b < 256 → nmul P (1 <<< i) b = nmul P b (1 <<< i) := by
  refine byteInduction ?_ ?_
  · simp [nmul_zero_left, nmul_zero_right]
  · intro j hj a _ _ ihm
    rw [nmul_xor_right, nmul_xor_left, ihm, nmul_two_pow_comm P i j hi hj]

theorem nmul_comm_of_lt (P : Nat) :
    ∀ a, a < 256 → ∀ b, b < 256 → nmul P a b = nmul P b a := by
  refine byteInduction ?_ ?_
  · intro b _
    simp [nmul_zero_left, nmul_zero_right]
  · intro i hi a _ _ ihm b hb
    rw [nmul_xor_left, nmul_xor_right, ihm b hb, nmul_one_shift_comm P i hi b hb]

theorem nmul_assoc_aux1 (P : Nat)
    (hB : ∀ i, i < 8 → ∀ j, j < 8 → ∀ k, k < 8 →
      nmul P (nmul P (1 <<< i) (1 <<< j)) (1 <<< k)
        = nmul P (1 <<< i) (nmul P (1 <<< j) (1 <<< k)))
    (i j : Nat) (hi : i < 8) (hj : j < 8) :
    ∀ c, c < 256 → nmul P (nmul P (1 <<< i) (1 <<< j)) c
      = nmul P (1 <<< i) (nmul P (1 <<< j) c) := by
  refine byteInduction ?_ ?_
  · simp [nmul_zero_left, nmul_zero_right]
  · intro k hk c _ _ ihm
    rw [nmul_xor_right, nmul_xor_right, nmul_xor_right, ihm, hB i hi j hj k hk]

theorem nmul_assoc_aux2 (P : Nat)
    (hB : ∀ i, i < 8 → ∀ j, j < 8 → ∀ k, k < 8 →
      nmul P (nmul P (1 <<< i) (1 <<< j)) (1 <<< k)
        = nmul P (1 <<< i) (nmul P (1 <<< j) (1 <<< k)))
    (i : Nat) (hi : i < 8) :
    ∀ b, b < 256 → ∀ c, c < 256 →
      nmul P (nmul P (1 <<< i) b) c = nmul P (1 <<< i) (nmul P b c) := by
  refine byteInduction ?_ ?_
  · intro c _
    simp [nmul_zero_left, nmul_zero_right]
  · intro j hj b _ _ ihm c hc
    rw [nmul_xor_right, nmul_xor_left, nmul_xor_left, nmul_xor_right,
      ihm c hc, nmul_assoc_aux1 P hB i j hi hj c hc]

theorem nmul_assoc_of_basis (P : Nat)
    (hB : ∀ i, i < 8 → ∀ j, j < 8 → ∀ k, k < 8 →
      nmul P (nmul P (1 <<< i) (1 <<< j)) (1 <<< k)
        = nmul P (1 <<< i) (nmul P (1 <<< j) (1 <<< k))) :
    ∀ a, a < 256 → ∀ b, b < 256 → ∀ c, c < 256 →
      nmul P (nmul P a b) c = nmul P a (nmul P b c) := by
  refine byteInduction ?_ ?_
  · intro b _ c _
    simp [nmul_zero_left, nmul_zero_right]
  · intro i hi a _ _ ihm b hb c hc
    rw [nmul_xor_left, nmul_xor_left, nmul_xor_left,
      ihm b hb c hc, nmul_assoc_aux2 P hB i hi b hb c hc]

theorem nmul_one (P a : Nat) (ha : a < 256) : nmul P a 1 = a := by
  rw [nmul, clmul_one_right]
  exact polyReduce_of_lt (by norm_num; exact ha)

theorem ninv_zero (P : Nat) : ninv P 0 = 0 := by
  simp [ninv, nsq, nmul_zero_left, nmul_zero_right]

/-- The facts about `POLY` that the field structure of `GF256 P` rests on:
`POLY` is a 9-bit value with the degree-8 bit set, multiplication is
associative on basis elements, and `a * a⁻¹ = 1` for nonzero bytes.
These hold for every irreducible `POLY`; they are established by computation
for the concrete polynomials the repository names (0x11B and 0x11D). -/
structure GoodPoly (P : Nat) : Prop where
  le_poly : 2 ^ 8 ≤ P
  poly_lt : P < 2 ^ 9
  basis_assoc : ∀ i, i < 8 → ∀ j, j < 8 → ∀ k, k < 8 →
    nmul P (nmul P (1 <<< i) (1 <<< j)) (1 <<< k)
      = nmul P (1 <<< i) (nmul P (1 <<< j) (1 <<< k))
  nmul_ninv : ∀ a, a < 256 → a ≠ 0 → nmul P a (ninv P a % 256) = 1

set_option maxRecDepth 10000 in
theorem goodPoly_283 : GoodPoly 283 :=
  ⟨by norm_num, by norm_num, by decide, by decide⟩

set_option maxRecDepth 10000 in
theorem goodPoly_285 : GoodPoly 285 :=
  ⟨by norm_num, by norm_num, by decide, by decide⟩

/-! ## The `GF256` carrier

`field.rs` is absent from the sources; modelled from the spec:
`pub struct GF256<const POLY: u16>(pub u8)` represents "an element of GF(2⁸)
as an unsigned 8-bit value"; "The low 8 bits of the result are the product"
(hence the `% 256` in multiplication, a no-op for a well-formed `POLY`). -/
structure GF256 (P : Nat) where
  val : Fin 256
deriving DecidableEq

variable {P : Nat}

theorem GF256.ext_val {a b : GF256 P} (h : a.val.val = b.val.val) : a = b := by
  cases a; cases b
  simp only [GF256.mk.injEq]
  exact Fin.ext h

theorem lt_256_pow {a : Nat} (h : a < 256) : a < 2 ^ 8 := by norm_num; exact h

instance : Zero (GF256 P) := ⟨⟨0⟩⟩

instance : One (GF256 P) := ⟨⟨1⟩⟩

/-- Modelled from the spec: "Addition and subtraction: bitwise XOR". -/
instance : Add (GF256 P) :=
  ⟨fun a b => ⟨⟨a.val.val ^^^ b.val.val, by
    have h := Nat.xor_lt_two_pow (lt_256_pow a.val.isLt) (lt_256_pow b.val.isLt)
    norm_num at h
    exact h⟩⟩⟩

/-- In characteristic 2 negation is the identity ("subtraction is identical
to addition"). -/
instance : Neg (GF256 P) := ⟨fun a => a⟩

/-- Modelled from the spec: carry-less multiplication followed by the
reduction; "The low 8 bits of the result are the product". -/
instance : Mul (GF256 P) :=
  ⟨fun a b => ⟨⟨nmul P a.val.val b.val.val % 256, Nat.mod_lt _ (by norm_num)⟩⟩⟩

/-- Modelled from the spec: "a⁻¹ = a^(254), implemented by repeated squaring". -/
instance : Inv (GF256 P) :=
  ⟨fun a => ⟨⟨ninv P a.val.val % 256, Nat.mod_lt _ (by norm_num)⟩⟩⟩

/-- Modelled from the spec: "Division: a / b = a * b⁻¹". -/
def gfDiv (a b : GF256 P) : GF256 P := a * b⁻¹

/-- Modelled from the spec: "subtraction is identical to addition". -/
def gfSub (a b : GF256 P) : GF256 P := a + b

/-- Modelled from the spec: "Sum over a sequence: fold with + from 0". -/
def gfSum (l : List (GF256 P)) : GF256 P := l.foldl (· + ·) 0

/-- Modelled from the spec: "product over a sequence: fold with * from 1". -/
def gfProd (l : List (GF256 P)) : GF256 P := l.foldl (· * ·) 1

theorem gf_zero_val : ((0 : GF256 P)).val.val = 0 := rfl

theorem gf_one_val : ((1 : GF256 P)).val.val = 1 := rfl

theorem gf_add_val (a b : GF256 P) : (a + b).val.val = a.val.val ^^^ b.val.val := rfl

theorem gf_mul_val (a b : GF256 P) :
    (a * b).val.val = nmul P a.val.val b.val.val % 256 := rfl

theorem gf_inv_val (a : GF256 P) : (a⁻¹).val.val = ninv P a.val.val % 256 := rfl

theorem gf_mul_val_good (h : GoodPoly P) (a b : GF256 P) :
    (a * b).val.val = nmul P a.val.val b.val.val := by
  rw [gf_mul_val]
  exact Nat.mod_eq_of_lt (by
    have := nmul_lt h.le_poly h.poly_lt b.val.val (lt_256_pow a.val.isLt)
    norm_num at this
    exact this)

theorem gf_add_assoc (a b c : GF256 P) : a + b + c = a + (b + c) :=
  GF256.ext_val (by simp only [gf_add_val, Nat.xor_assoc])

theorem gf_add_comm (a b : GF256 P) : a + b = b + a :=
  GF256.ext_val (by simp only [gf_add_val, Nat.xor_comm])

theorem gf_zero_add (a : GF256 P) : 0 + a = a :=
  GF256.ext_val (by simp only [gf_add_val, gf_zero_val, Nat.zero_xor])

theorem gf_neg_add_cancel (a : GF256 P) : -a + a = 0 :=
  GF256.ext_val (by
    show a.val.val ^^^ a.val.val = 0
    exact Nat.xor_self _)

theorem gf_mul_assoc (h : GoodPoly P) (a b c : GF256 P) : a * b * c = a * (b * c) :=
  GF256.ext_val (by
    rw [gf_mul_val_good h, gf_mul_val_good h, gf_mul_val_good h, gf_mul_val_good h]
    exact nmul_assoc_of_basis P h.basis_assoc _ a.val.isLt _ b.val.isLt _ c.val.isLt)

theorem gf_mul_comm (a b : GF256 P) : a * b = b * a :=
  GF256.ext_val (by
    simp only [gf_mul_val]
    rw [nmul_comm_of_lt P _ a.val.isLt _ b.val.isLt])

theorem gf_mul_one (a : GF256 P) : a * 1 = a :=
  GF256.ext_val (by
    simp only [gf_mul_val, gf_one_val]
    rw [nmul_one P _ a.val.isLt, Nat.mod_eq_of_lt a.val.isLt])

theorem gf_one_mul (a : GF256 P) : 1 * a = a := by
  rw [gf_mul_comm, gf_mul_one]

theorem gf_val_ne_zero {a : GF256 P} (h : a ≠ 0) : a.val.val ≠ 0 := by
  intro hv
  exact h (GF256.ext_val (by rw [hv, gf_zero_val]))

theorem gf_mul_inv_cancel (h : GoodPoly P) (a : GF256 P) (ha : a ≠ 0) :
    a * a⁻¹ = 1 :=
  GF256.ext_val (by
    rw [gf_mul_val, gf_inv_val, gf_one_val,
      h.nmul_ninv a.val.val a.val.isLt (gf_val_ne_zero ha)])

theorem gf_inv_zero : ((0 : GF256 P))⁻¹ = 0 :=
  GF256.ext_val (by rw [gf_inv_val, gf_zero_val, ninv_zero, Nat.zero_mod])

theorem gf_left_distrib (h : GoodPoly P) (a b c : GF256 P) :
    a * (b + c) = a * b + a * c :=
  GF256.ext_val (by
    rw [gf_add_val, gf_mul_val_good h, gf_mul_val_good h, gf_mul_val_good h,
      gf_add_val, nmul_xor_right])

theorem gf_zero_ne_one : ((0 : GF256 P)) ≠ 1 := by
  intro hc
  have hv := congrArg (fun x : GF256 P => x.val.val) hc
  simp only [gf_zero_val, gf_one_val] at hv
  exact absurd hv (by norm_num)

/-- The field structure on `GF256 P`, for any `POLY` satisfying `GoodPoly`. -/
def gfField (P : Nat) (h : GoodPoly P) : Field (GF256 P) :=
  Field.ofMinimalAxioms (GF256 P)
    gf_add_assoc
    gf_zero_add
    gf_neg_add_cancel
    (gf_mul_assoc h)
    gf_mul_comm
    gf_one_mul
    (fun a ha => gf_mul_inv_cancel h a ha)
    gf_inv_zero
    (gf_left_distrib h)
    ⟨0, 1, gf_zero_ne_one⟩

instance gfFieldInst (P : Nat) [hP : Fact (GoodPoly P)] : Field (GF256 P) :=
  gfField P hP.out

instance : Fact (GoodPoly 283) := ⟨goodPoly_283⟩

instance : Fact (GoodPoly 285) := ⟨goodPoly_285⟩

/-! ## Shares and their wire format (share.rs) -/

/-- Decoding failure of `TryFrom<&[u8]>`: "A Share must be at least 2 bytes
long" (the spec's `TooShort`). -/
inductive ShareError
  | tooShort
deriving DecidableEq

/-- The share type of the default build (no `share_x`): only the y values. -/
structure ShareNoX (P : Nat) where
  y : List (GF256 P)
deriving DecidableEq

/-- The share type of the `share_x` build: explicit x plus the y values. -/
structure ShareWithX (P : Nat) where
  x : GF256 P
  y : List (GF256 P)
deriving DecidableEq

/-- `From<&ShareNoX> for Vec<u8>`: the bytes are the y values. -/
def ShareNoX.toBytes (s : ShareNoX P) : List (Fin 256) := s.y.map (·.val)

/-- `From<&ShareWithX> for Vec<u8>`: first byte is x, the rest are y. -/
def ShareWithX.toBytes (s : ShareWithX P) : List (Fin 256) :=
  s.x.val :: s.y.map (·.val)

/-- `TryFrom<&[u8]> for ShareNoX`: all bytes become y values. -/
def ShareNoX.fromBytes (s : List (Fin 256)) : Except ShareError (ShareNoX P) :=
  if s.length < 2 then .error .tooShort
  else .ok ⟨s.map (fun b => ⟨b⟩)⟩

/-- `TryFrom<&[u8]> for ShareWithX`: byte 0 is x, bytes 1.. are y. -/
def ShareWithX.fromBytes (s : List (Fin 256)) : Except ShareError (ShareWithX P) :=
  if h : s.length < 2 then .error .tooShort
  else .ok ⟨⟨s.head (by rintro rfl; simp at h)⟩, s.tail.map (fun b => ⟨b⟩)⟩

/-! ## The algorithms of math.rs -/

/-- `GF256(n as u8)`: a `u8` cast truncates modulo 256. -/
def gfOfNat (n : Nat) : GF256 P := ⟨⟨n % 256, Nat.mod_lt _ (by norm_num)⟩⟩

/-- Horner evaluation used by `get_evaluator`:
`p.iter().fold(GF256(0), |acc, c| acc * x + c)`. -/
def horner (p : List (GF256 P)) (x : GF256 P) : GF256 P :=
  p.foldl (fun acc c => acc * x + c) 0

/-- `interpolate` (math.rs:14): Lagrange interpolation at x = 0, returning the
secret bytes. The source indexes `shares[0]` (a panic on an empty slice) and
`s_i.y[s]` (a panic on a short y); the embedding returns `[]` respectively a
`getD` default there — positions the facade never reaches. -/
def interpolate (shares : List (ShareWithX P)) : List (Fin 256) :=
  match shares with
  | [] => []
  | s0 :: _ =>
    (List.range s0.y.length).map (fun s =>
      (gfSum (shares.map (fun si =>
        gfProd ((shares.filter (fun sj => sj.x ≠ si.x)).map
          (fun sj => gfDiv sj.x (gfSub sj.x si.x))) *
        si.y.getD s 0))).val)

/-- `interpolate_polynomial` (math.rs:34): Lagrange interpolation of the
sample points at a given x. The source asserts
`x_samples.len() == y_samples.len()`; the embedding reads missing samples as
`getD` defaults, which the assert makes unreachable in the source. -/
def interpolate_polynomial (x_samples y_samples : List (GF256 P)) (x : GF256 P) :
    GF256 P :=
  (List.range x_samples.length).foldl (fun result i =>
    result + (y_samples.getD i 0 *
      (List.range x_samples.length).foldl (fun basis j =>
        if i = j then basis
        else basis * gfDiv (x + x_samples.getD j 0)
          (x_samples.getD i 0 + x_samples.getD j 0))
        1))
    0

/-- `reshare` (math.rs:68): share at index `x = GF256(index as u8)` computed
from existing shares. The source's
`assert!(shares.len() >= 2 && shares.len() <= 255)` panic is modelled by
`none`. (In the `share_x` build the result additionally carries
`x = GF256(index as u8)`; the y computation is identical.) -/
def reshare (shares : List (GF256 P × ShareNoX P)) (index : Nat) :
    Option (ShareNoX P) :=
  match shares with
  | [] => none
  | s0 :: _ =>
    if 2 ≤ shares.length ∧ shares.length ≤ 255 then
      some ⟨(List.range s0.2.y.length).map (fun i =>
        interpolate_polynomial (shares.map (·.1))
          (shares.map (fun sh => sh.2.y.getD i 0)) (gfOfNat index))⟩
    else none

/-- `random_polynomial` (math.rs:110): k coefficients, highest degree first,
the last being the secret byte. `vec![0u8; k - 1]` underflows for `k = 0`
(panic in debug, capacity overflow abort in release), modelled as `none`.
The RNG is a stream of field elements; the k−1 drawn bytes are
`rng 0, …, rng (k−2)`, pushed in reverse order, then the constant term. -/
def random_polynomial (s : GF256 P) (k : Nat) (rng : Nat → GF256 P) :
    Option (List (GF256 P)) :=
  if k = 0 then none
  else some (((List.range (k - 1)).map rng).reverse ++ [s])

/-- `get_evaluator` (math.rs:133), default build: shares for
`x = 1, 2, …, 255` in order, one y value per polynomial. -/
def get_evaluator (polys : List (List (GF256 P))) : List (ShareNoX P) :=
  (List.finRange 255).map (fun i =>
    ⟨polys.map (fun p => horner p (gfOfNat (i.val + 1)))⟩)

/-- `get_evaluator` (math.rs:133), `share_x` build: the same shares, each
carrying its x. -/
def get_evaluator_withx (polys : List (List (GF256 P))) : List (ShareWithX P) :=
  (List.finRange 255).map (fun i =>
    ⟨gfOfNat (i.val + 1), polys.map (fun p => horner p (gfOfNat (i.val + 1)))⟩)

/-! ## The facade of lib.rs -/

/-- `pub struct SecretSharing<const POLY: u16>(pub u8)`: the constructor is the
bare tuple-struct constructor, accepting any byte (no validation). -/
structure SecretSharing (POLY : Nat) where
  threshold : Fin 256

/-- The error values returned by `recover` / `recover_shares`:
"All shares must have the same length" (`UnequalShareLength`),
"Not enough shares to recover original secret/shares" (`InsufficientShares`),
"provide a shares array of size n; use None for unknown shares"
(`WrongLength`). -/
inductive RecoverError
  | unequalShareLength
  | insufficientShares
  | wrongLength
deriving DecidableEq

/-- `dealer_rng` (lib.rs:150), default build: one random polynomial per secret
byte (chunk `i` consumes the RNG bytes `i*(k−1), …`, matching the sequential
`rng.fill` calls), then the evaluator. A `none` result models the
`random_polynomial` panic at threshold 0. -/
def dealer_rng (k : Nat) (secret : List (Fin 256)) (rng : Nat → GF256 P) :
    Option (List (ShareNoX P)) :=
  match secret.enum.mapM (fun ib =>
      random_polynomial (⟨ib.2⟩ : GF256 P) k (fun j => rng (ib.1 * (k - 1) + j))) with
  | none => none
  | some polys => some (get_evaluator polys)

/-- `dealer_rng` (lib.rs:150), `share_x` build. -/
def dealer_rng_withx (k : Nat) (secret : List (Fin 256)) (rng : Nat → GF256 P) :
    Option (List (ShareWithX P)) :=
  match secret.enum.mapM (fun ib =>
      random_polynomial (⟨ib.2⟩ : GF256 P) k (fun j => rng (ib.1 * (k - 1) + j))) with
  | none => none
  | some polys => some (get_evaluator_withx polys)

/-- The scan loop of `recover` (lib.rs:217-244), default build: skip `None`,
check the y length against the first present share, insert the serialization
into the key set, and push the share with `x = GF256(i as u8 + 1)` where `i`
counts every slot. -/
def recoverScanNoX : Nat → Option Nat → Finset (List (Fin 256)) →
    List (ShareWithX P) → List (Option (ShareNoX P)) →
    Except RecoverError (Finset (List (Fin 256)) × List (ShareWithX P))
  | _, _, keys, values, [] => .ok (keys, values)
  | i, sl, keys, values, none :: rest => recoverScanNoX (i + 1) sl keys values rest
  | i, sl, keys, values, some sh :: rest =>
    if sh.y.length ≠ sl.getD sh.y.length then .error .unequalShareLength
    else recoverScanNoX (i + 1) (some (sl.getD sh.y.length))
      (insert sh.toBytes keys) (values ++ [⟨gfOfNat (i % 256 + 1), sh.y⟩]) rest

/-- `recover` (lib.rs:207), default build. -/
def recover_nox (k : Nat) (shares : List (Option (ShareNoX P))) :
    Except RecoverError (List (Fin 256)) :=
  match recoverScanNoX 0 none ∅ [] shares with
  | .error e => .error e
  | .ok (keys, values) =>
    if keys = ∅ ∨ keys.card < k then .error .insufficientShares
    else .ok (interpolate values)

/-- The scan loop of `recover` (lib.rs:217-244), `share_x` build: the share is
pushed as-is, its carried x is used. -/
def recoverScanWithX : Nat → Option Nat → Finset (List (Fin 256)) →
    List (ShareWithX P) → List (Option (ShareWithX P)) →
    Except RecoverError (Finset (List (Fin 256)) × List (ShareWithX P))
  | _, _, keys, values, [] => .ok (keys, values)
  | i, sl, keys, values, none :: rest => recoverScanWithX (i + 1) sl keys values rest
  | i, sl, keys, values, some sh :: rest =>
    if sh.y.length ≠ sl.getD sh.y.length then .error .unequalShareLength
    else recoverScanWithX (i + 1) (some (sl.getD sh.y.length))
      (insert sh.toBytes keys) (values ++ [sh]) rest

/-- `recover` (lib.rs:207), `share_x` build. -/
def recover_withx (k : Nat) (shares : List (Option (ShareWithX P))) :
    Except RecoverError (List (Fin 256)) :=
  match recoverScanWithX 0 none ∅ [] shares with
  | .error e => .error e
  | .ok (keys, values) =>
    if keys = ∅ ∨ keys.card < k then .error .insufficientShares
    else .ok (interpolate values)

/-- `Iterator::cycle().take(n)` on a materialized list: element `i` is
`l[i % l.length]`. On the empty list the source iterator would be empty (and
`take n` would hang only for `n > 0`, a state the facade's nonemptiness check
prevents); the embedding returns `[]`. -/
def cycleTake (l : List α) (n : Nat) : List α :=
  match l with
  | [] => []
  | a :: rest =>
    (List.range n).map (fun i => (a :: rest).getD (i % (a :: rest).length) a)

/-- The scan loop of `recover_shares` (lib.rs:289-315), default build: like
`recoverScanNoX` but also counting every slot (present or absent) and pairing
each present share with `x = GF256(i as u8 + 1)`. -/
def recoverSharesScan : Nat → Option Nat → Finset (List (Fin 256)) →
    List (GF256 P × ShareNoX P) → Nat → List (Option (ShareNoX P)) →
    Except RecoverError (Finset (List (Fin 256)) × List (GF256 P × ShareNoX P) × Nat)
  | _, _, keys, values, count, [] => .ok (keys, values, count)
  | i, sl, keys, values, count, none :: rest =>
    recoverSharesScan (i + 1) sl keys values (count + 1) rest
  | i, sl, keys, values, count, some sh :: rest =>
    if sh.y.length ≠ sl.getD sh.y.length then .error .unequalShareLength
    else recoverSharesScan (i + 1) (some (sl.getD sh.y.length))
      (insert sh.toBytes keys) (values ++ [(gfOfNat (i % 256 + 1), sh)])
      (count + 1) rest

/-- `recover_shares` (lib.rs:278), default build. In the final branch the
`reshare` assert cannot fire for inputs of at most 255 slots; `getD ⟨[]⟩`
stands in for that panic. -/
def recover_shares (k : Nat) (shares : List (Option (ShareNoX P))) (n : Nat) :
    Except RecoverError (List (ShareNoX P)) :=
  match recoverSharesScan 0 none ∅ [] 0 shares with
  | .error e => .error e
  | .ok (keys, values, count) =>
    if count ≠ n then .error .wrongLength
    else if keys = ∅ ∨ keys.card < k then .error .insufficientShares
    else if k = 1 then .ok (cycleTake (values.map (·.2)) n)
    else .ok ((List.range n).map (fun i => (reshare values (i + 1)).getD ⟨[]⟩))

/-- The present shares of an optional collection, in order. -/
def presentShares (shares : List (Option α)) : List α := shares.filterMap id

/-- All shares of the list have the same y length (the property `recover`'s
scan checks against the first present share). -/
def sameYLen (l : List (ShareNoX P)) : Prop :=
  ∀ a ∈ l, ∀ b ∈ l, a.y.length = b.y.length

/-- Length-compatibility of a present-share list with the scan's tracked
length state: before any share is seen, all shares must agree with the first;
afterwards, all must equal the tracked length. -/
def lenCompat (sl : Option Nat) (l : List (ShareNoX P)) : Prop :=
  match sl with
  | some L => ∀ a ∈ l, a.y.length = L
  | none =>
    match l with
    | [] => True
    | s0 :: rest => ∀ a ∈ rest, a.y.length = s0.y.length

/-- The x-assigned values `recover` builds in the default build: present
shares paired with `x = GF256(i as u8 + 1)`, `i` counting every slot,
starting from `i`. -/
def noxValues (i : Nat) : List (Option (ShareNoX P)) → List (ShareWithX P)
  | [] => []
  | none :: rest => noxValues (i + 1) rest
  | some sh :: rest => ⟨gfOfNat (i % 256 + 1), sh.y⟩ :: noxValues (i + 1) rest

/-- The `(x, share)` pairs `recover_shares` builds in the default build. -/
def noxPairs (i : Nat) : List (Option (ShareNoX P)) → List (GF256 P × ShareNoX P)
  | [] => []
  | none :: rest => noxPairs (i + 1) rest
  | some sh :: rest => (gfOfNat (i % 256 + 1), sh) :: noxPairs (i + 1) rest

@[simp] theorem presentShares_nil : presentShares ([] : List (Option α)) = [] := rfl

@[simp] theorem presentShares_cons_none (l : List (Option α)) :
    presentShares (none :: l) = presentShares l := rfl

@[simp] theorem presentShares_cons_some (a : α) (l : List (Option α)) :
    presentShares (some a :: l) = a :: presentShares l := rfl

theorem recoverScanNoX_ok (l : List (Option (ShareNoX P))) :
    ∀ i sl keys values, lenCompat sl (presentShares l) →
      recoverScanNoX i sl keys values l
        = .ok (keys ∪ ((presentShares l).map ShareNoX.toBytes).toFinset,
            values ++ noxValues i l) := by
  induction l with
  | nil => intro i sl keys values _; simp [recoverScanNoX, noxValues]
  | cons hd tl ih =>
    intro i sl keys values hcompat
    cases hd with
    | none =>
      simp only [presentShares_cons_none] at hcompat
      simp only [recoverScanNoX, noxValues, presentShares_cons_none,
        ih (i + 1) sl keys values hcompat]
    | some sh =>
      simp only [presentShares_cons_some] at hcompat
      have heq : sh.y.length = sl.getD sh.y.length ∧
          lenCompat (some (sl.getD sh.y.length)) (presentShares tl) := by
        cases sl with
        | none => exact ⟨rfl, hcompat⟩
        | some L => exact ⟨hcompat sh (by simp), fun a ha => hcompat a (by simp [ha])⟩
      rw [show recoverScanNoX i sl keys values (some sh :: tl)
          = if sh.y.length ≠ sl.getD sh.y.length then .error .unequalShareLength
            else recoverScanNoX (i + 1) (some (sl.getD sh.y.length))
              (insert sh.toBytes keys) (values ++ [⟨gfOfNat (i % 256 + 1), sh.y⟩]) tl
          from rfl,
        if_neg (not_not_intro heq.1), ih _ _ _ _ heq.2]
      simp [noxValues, Finset.insert_union, Finset.union_insert, List.append_assoc]

theorem recoverScanNoX_err (l : List (Option (ShareNoX P))) :
    ∀ i sl keys values, ¬ lenCompat sl (presentShares l) →
      recoverScanNoX i sl keys values l = .error .unequalShareLength := by
  induction l with
  | nil =>
    intro i sl keys values hbad
    exact absurd (by cases sl <;> simp [lenCompat]) hbad
  | cons hd tl ih =>
    intro i sl keys values hbad
    cases hd with
    | none =>
      simp only [presentShares_cons_none] at hbad
      simpa only [recoverScanNoX] using ih (i + 1) sl keys values hbad
    | some sh =>
      simp only [presentShares_cons_some] at hbad
      rw [show recoverScanNoX i sl keys values (some sh :: tl)
          = if sh.y.length ≠ sl.getD sh.y.length then .error .unequalShareLength
            else recoverScanNoX (i + 1) (some (sl.getD sh.y.length))
              (insert sh.toBytes keys) (values ++ [⟨gfOfNat (i % 256 + 1), sh.y⟩]) tl
          from rfl]
      by_cases hmis : sh.y.length = sl.getD sh.y.length
      · rw [if_neg (not_not_intro hmis)]
        apply ih
        intro hrest
        apply hbad
        cases sl with
        | none =>
          intro a ha
          exact hrest a ha
        | some L =>
          intro a ha
          rcases List.mem_cons.mp ha with rfl | ha'
          · simpa using hmis
          · simpa using hrest a ha'
      · rw [if_pos hmis]

theorem recoverScanWithX_ok (l : List (Option (ShareWithX P))) :
    ∀ i sl keys values,
      lenCompat sl ((presentShares l).map (fun s => (⟨s.y⟩ : ShareNoX P))) →
      recoverScanWithX i sl keys values l
        = .ok (keys ∪ ((presentShares l).map ShareWithX.toBytes).toFinset,
            values ++ presentShares l) := by
  induction l with
  | nil => intro i sl keys values _; simp [recoverScanWithX]
  | cons hd tl ih =>
    intro i sl keys values hcompat
    cases hd with
    | none =>
      simp only [presentShares_cons_none] at hcompat
      simp only [recoverScanWithX, presentShares_cons_none,
        ih (i + 1) sl keys values hcompat]
    | some sh =>
      simp only [presentShares_cons_some, List.map_cons] at hcompat
      have heq : sh.y.length = sl.getD sh.y.length ∧
          lenCompat (some (sl.getD sh.y.length))
            ((presentShares tl).map (fun s => (⟨s.y⟩ : ShareNoX P))) := by
        cases sl with
        | none => exact ⟨rfl, fun a ha => hcompat a (by simp [ha])⟩
        | some L =>
          exact ⟨hcompat ⟨sh.y⟩ (by simp), fun a ha => hcompat a (by simp [ha])⟩
      rw [show recoverScanWithX i sl keys values (some sh :: tl)
          = if sh.y.length ≠ sl.getD sh.y.length then .error .unequalShareLength
            else recoverScanWithX (i + 1) (some (sl.getD sh.y.length))
              (insert sh.toBytes keys) (values ++ [sh]) tl
          from rfl,
        if_neg (not_not_intro heq.1), ih _ _ _ _ heq.2]
      simp [Finset.insert_union, Finset.union_insert, List.append_assoc]

theorem recoverSharesScan_ok (l : List (Option (ShareNoX P))) :
    ∀ i sl keys values count, lenCompat sl (presentShares l) →
      recoverSharesScan i sl keys values count l
        = .ok (keys ∪ ((presentShares l).map ShareNoX.toBytes).toFinset,
            values ++ noxPairs i l, count + l.length) := by
  induction l with
  | nil => intro i sl keys values count _; simp [recoverSharesScan, noxPairs]
  | cons hd tl ih =>
    intro i sl keys values count hcompat
    cases hd with
    | none =>
      simp only [presentShares_cons_none] at hcompat
      rw [show recoverSharesScan i sl keys values count (none :: tl)
          = recoverSharesScan (i + 1) sl keys values (count + 1) tl from rfl,
        ih (i + 1) sl keys values (count + 1) hcompat]
      simp only [noxPairs, List.length_cons, presentShares_cons_none]
      rw [show count + 1 + tl.length = count + (tl.length + 1) by omega]
    | some sh =>
      simp only [presentShares_cons_some] at hcompat
      have heq : sh.y.length = sl.getD sh.y.length ∧
          lenCompat (some (sl.getD sh.y.length)) (presentShares tl) := by
        cases sl with
        | none => exact ⟨rfl, hcompat⟩
        | some L => exact ⟨hcompat sh (by simp), fun a ha => hcompat a (by simp [ha])⟩
      rw [show recoverSharesScan i sl keys values count (some sh :: tl)
          = if sh.y.length ≠ sl.getD sh.y.length then .error .unequalShareLength
            else recoverSharesScan (i + 1) (some (sl.getD sh.y.length))
              (insert sh.toBytes keys) (values ++ [(gfOfNat (i % 256 + 1), sh)])
              (count + 1) tl
          from rfl,
        if_neg (not_not_intro heq.1), ih _ _ _ _ _ heq.2]
      simp only [noxPairs, List.length_cons, presentShares_cons_some, List.map_cons,
        List.toFinset_cons, Finset.insert_union, Finset.union_insert,
        List.append_assoc, List.singleton_append]
      rw [show count + 1 + tl.length = count + (tl.length + 1) by omega]

theorem recoverSharesScan_err (l : List (Option (ShareNoX P))) :
    ∀ i sl keys values count, ¬ lenCompat sl (presentShares l) →
      recoverSharesScan i sl keys values count l = .error .unequalShareLength := by
  induction l with
  | nil =>
    intro i sl keys values count hbad
    exact absurd (by cases sl <;> simp [lenCompat]) hbad
  | cons hd tl ih =>
    intro i sl keys values count hbad
    cases hd with
    | none =>
      simp only [presentShares_cons_none] at hbad
      simpa only [recoverSharesScan] using ih (i + 1) sl keys values (count + 1) hbad
    | some sh =>
      simp only [presentShares_cons_some] at hbad
      rw [show recoverSharesScan i sl keys values count (some sh :: tl)
          = if sh.y.length ≠ sl.getD sh.y.length then .error .unequalShareLength
            else recoverSharesScan (i + 1) (some (sl.getD sh.y.length))
              (insert sh.toBytes keys) (values ++ [(gfOfNat (i % 256 + 1), sh)])
              (count + 1) tl
          from rfl]
      by_cases hmis : sh.y.length = sl.getD sh.y.length
      · rw [if_neg (not_not_intro hmis)]
        apply ih
        intro hrest
        apply hbad
        cases sl with
        | none => intro a ha; exact hrest a ha
        | some L =>
          intro a ha
          rcases List.mem_cons.mp ha with rfl | ha'
          · simpa using hmis
          · simpa using hrest a ha'
      · rw [if_pos hmis]



theorem lenCompat_none_of_sameYLen {l : List (ShareNoX P)} (h : sameYLen l) :
    lenCompat none l := by
  cases l with
  | nil => trivial
  | cons s0 rest =>
    intro a ha
    exact h a (List.mem_cons_of_mem _ ha) s0 (List.mem_cons_self _ _)

theorem recover_nox_eq (k : Nat) (shares : List (Option (ShareNoX P)))
    (hlen : lenCompat none (presentShares shares)) :
    recover_nox k shares =
      if ((presentShares shares).map ShareNoX.toBytes).toFinset = ∅
          ∨ ((presentShares shares).map ShareNoX.toBytes).toFinset.card < k
      then .error .insufficientShares
      else .ok (interpolate (noxValues 0 shares)) := by
  unfold recover_nox
  rw [recoverScanNoX_ok shares 0 none ∅ [] hlen]
  simp

theorem recover_withx_eq (k : Nat) (shares : List (Option (ShareWithX P)))
    (hlen : lenCompat none ((presentShares shares).map (fun s => (⟨s.y⟩ : ShareNoX P)))) :
    recover_withx k shares =
      if ((presentShares shares).map ShareWithX.toBytes).toFinset = ∅
          ∨ ((presentShares shares).map ShareWithX.toBytes).toFinset.card < k
      then .error .insufficientShares
      else .ok (interpolate (presentShares shares)) := by
  unfold recover_withx
  rw [recoverScanWithX_ok shares 0 none ∅ [] hlen]
  simp

theorem recover_shares_eq (k n : Nat) (shares : List (Option (ShareNoX P)))
    (hlen : lenCompat none (presentShares shares)) :
    recover_shares k shares n =
      if shares.length ≠ n then .error .wrongLength
      else if ((presentShares shares).map ShareNoX.toBytes).toFinset = ∅
          ∨ ((presentShares shares).map ShareNoX.toBytes).toFinset.card < k
      then .error .insufficientShares
      else if k = 1 then .ok (cycleTake ((noxPairs 0 shares).map (·.2)) n)
      else .ok ((List.range n).map fun i => (reshare (noxPairs 0 shares) (i + 1)).getD ⟨[]⟩) := by
  unfold recover_shares
  rw [recoverSharesScan_ok shares 0 none ∅ [] 0 hlen]
  simp

theorem noxPairs_map_snd (l : List (Option (ShareNoX P))) :
    ∀ i, (noxPairs i l).map (·.2) = presentShares l := by
  induction l with
  | nil => intro i; rfl
  | cons hd tl ih =>
    intro i
    cases hd with
    | none => simpa [noxPairs] using ih (i + 1)
    | some sh => simpa [noxPairs] using ih (i + 1)

theorem cycleTake_singleton (a : α) (n : Nat) :
    cycleTake [a] n = List.replicate n a := by
  unfold cycleTake
  simp [List.map_const']

/-- C2. `recover` fails with `InsufficientShares` exactly when the number of
distinct serializations among the present shares is below the threshold
`k ∈ [1, 255]` (inputs passing the equal-length scan); in particular `k`
present shares containing a duplicate still fail. -/
theorem recover_insufficient_iff (P k : Nat) (hk : 1 ≤ k)
    (shares : List (Option (ShareNoX P)))
    (hlen : sameYLen (presentShares shares)) :
    (recover_nox k shares = .error .insufficientShares ↔
      ((presentShares shares).map ShareNoX.toBytes).toFinset.card < k)
    ∧ (((presentShares shares).length = k
        ∧ ¬ ((presentShares shares).map ShareNoX.toBytes).Nodup) →
      recover_nox k shares = .error .insufficientShares) := by
  have hmain := recover_nox_eq k shares (lenCompat_none_of_sameYLen hlen)
  constructor
  · rw [hmain]
    by_cases hcard : ((presentShares shares).map ShareNoX.toBytes).toFinset = ∅
        ∨ ((presentShares shares).map ShareNoX.toBytes).toFinset.card < k
    · rw [if_pos hcard]
      constructor
      · intro _
        rcases hcard with he | hc2
        · rw [he]
          simpa [Finset.card_empty] using hk
        · exact hc2
      · intro _
        rfl
    · rw [if_neg hcard]
      constructor
      · intro hcontra
        exact absurd hcontra (by simp)
      · intro hc2
        exact absurd (Or.inr hc2) hcard
  · rintro ⟨hlenk, hdup⟩
    rw [hmain, if_pos]
    right
    have hsub := List.dedup_sublist ((presentShares shares).map ShareNoX.toBytes)
    have hne : ((presentShares shares).map ShareNoX.toBytes).dedup
        ≠ (presentShares shares).map ShareNoX.toBytes := by
      intro he
      exact hdup (List.dedup_eq_self.mp he)
    have hlt : ((presentShares shares).map ShareNoX.toBytes).dedup.length
        < ((presentShares shares).map ShareNoX.toBytes).length := by
      rcases Nat.lt_or_ge ((presentShares shares).map ShareNoX.toBytes).dedup.length
          ((presentShares shares).map ShareNoX.toBytes).length with h | h
      · exact h
      · exact absurd (hsub.eq_of_length (Nat.le_antisymm hsub.length_le h)) hne
    calc ((presentShares shares).map ShareNoX.toBytes).toFinset.card
        = ((presentShares shares).map ShareNoX.toBytes).dedup.length :=
          List.card_toFinset _
      _ < ((presentShares shares).map ShareNoX.toBytes).length := hlt
      _ = k := by rw [List.length_map, hlenk]

/-- C7. A present share whose y length differs from the first present share's
makes both `recover` and `recover_shares` fail with `UnequalShareLength`. -/
theorem recover_unequal_share_length (P k n : Nat)
    (shares : List (Option (ShareNoX P)))
    (s0 : ShareNoX P) (rest : List (ShareNoX P))
    (hpres : presentShares shares = s0 :: rest)
    (sh : ShareNoX P) (hsh : sh ∈ rest) (hne : sh.y.length ≠ s0.y.length) :
    recover_nox k shares = .error .unequalShareLength
    ∧ recover_shares k shares n = .error .unequalShareLength := by
  have hbad : ¬ lenCompat none (presentShares shares) := by
    rw [hpres]
    intro hcompat
    exact hne (hcompat sh hsh)
  constructor
  · unfold recover_nox
    rw [recoverScanNoX_err shares 0 none ∅ [] hbad]
  · unfold recover_shares
    rw [recoverSharesScan_err shares 0 none ∅ [] 0 hbad]

/-- C3 (amended). With threshold 1 and an input passing the checks,
`recover_shares` returns the collected *present* shares (duplicates included,
in input order) replicated cyclically to length `n`; with a single present
share all `n` returned shares are that share. -/
theorem recover_shares_threshold_one (P n : Nat)
    (shares : List (Option (ShareNoX P)))
    (hlen : sameYLen (presentShares shares))
    (hcount : shares.length = n)
    (hne : presentShares shares ≠ []) :
    recover_shares 1 shares n = .ok (cycleTake (presentShares shares) n)
    ∧ ∀ sh, presentShares shares = [sh] →
        recover_shares 1 shares n = .ok (List.replicate n sh) := by
  have hmain := recover_shares_eq 1 n shares (lenCompat_none_of_sameYLen hlen)
  have hfin : ((presentShares shares).map ShareNoX.toBytes).toFinset ≠ ∅ := by
    intro he
    rcases List.exists_mem_of_ne_nil _ hne with ⟨a, ha⟩
    have : a.toBytes ∈ ((presentShares shares).map ShareNoX.toBytes).toFinset := by
      simp only [List.mem_toFinset, List.mem_map]
      exact ⟨a, ha, rfl⟩
    rw [he] at this
    exact absurd this (Finset.not_mem_empty _)
  have hcard : ¬ (((presentShares shares).map ShareNoX.toBytes).toFinset = ∅
      ∨ ((presentShares shares).map ShareNoX.toBytes).toFinset.card < 1) := by
    rintro (he | hc)
    · exact hfin he
    · exact hfin (Finset.card_eq_zero.mp (by omega))
  have hres : recover_shares 1 shares n = .ok (cycleTake (presentShares shares) n) := by
    rw [hmain, if_neg (by simp [hcount]), if_neg hcard, if_pos rfl, noxPairs_map_snd]
  refine ⟨hres, fun sh hsh => ?_⟩
  rw [hres, hsh, cycleTake_singleton]

/-- C3 counterexample: with duplicates among the present shares the returned
sequence cycles the *collected* shares, not the *distinct* ones. -/
theorem recover_shares_threshold_one_counterexample :
    recover_shares (P := 283) 1
      [some ⟨[⟨1⟩]⟩, some ⟨[⟨2⟩]⟩, some ⟨[⟨1⟩]⟩, none, none] 5
      = .ok (cycleTake [⟨[⟨1⟩]⟩, ⟨[⟨2⟩]⟩, ⟨[⟨1⟩]⟩] 5)
    ∧ cycleTake [(⟨[⟨1⟩]⟩ : ShareNoX 283), ⟨[⟨2⟩]⟩, ⟨[⟨1⟩]⟩] 5
      ≠ cycleTake ([(⟨[⟨1⟩]⟩ : ShareNoX 283), ⟨[⟨2⟩]⟩, ⟨[⟨1⟩]⟩].dedup) 5 := by
  constructor
  · rfl
  · decide




theorem noxValues_eq_enumFrom (l : List (Option (ShareNoX P))) :
    ∀ i, noxValues i l = (List.enumFrom i l).filterMap
      (fun p => p.2.map (fun sh => (⟨gfOfNat (p.1 % 256 + 1), sh.y⟩ : ShareWithX P))) := by
  induction l with
  | nil => intro i; rfl
  | cons hd tl ih =>
    intro i
    cases hd with
    | none => simp [noxValues, List.enumFrom, ih (i + 1), Option.map]
    | some sh => simp [noxValues, List.enumFrom, ih (i + 1), Option.map]

set_option maxRecDepth 100000 in
/-- C4. In the default (No-X) build, `recover` pairs each present share with
the x-coordinate `GF256(i as u8 + 1)` where `i` is the 0-based enumeration
index counting absent slots too (so the x byte is the 1-based ordinal for the
first 255 slots), and rearranging the `None` placeholders changes the
recovered value. -/
theorem recover_nox_ordinal_x (P : Nat) :
    (∀ (shares : List (Option (ShareNoX P))) keys values,
      recoverScanNoX 0 none ∅ [] shares = .ok (keys, values) →
        values = shares.enum.filterMap
          (fun p => p.2.map (fun sh => (⟨gfOfNat (p.1 % 256 + 1), sh.y⟩ : ShareWithX P))))
    ∧ (∀ i : Nat, i + 1 ≤ 255 → (gfOfNat (P := P) (i % 256 + 1)).val.val = i + 1)
    ∧ recover_nox (P := 283) 2 [some ⟨[⟨3⟩]⟩, some ⟨[⟨2⟩]⟩, none]
      ≠ recover_nox (P := 283) 2 [some ⟨[⟨3⟩]⟩, none, some ⟨[⟨2⟩]⟩] := by
  refine ⟨?_, ?_, ?_⟩
  · intro shares keys values hok
    by_cases hc : lenCompat none (presentShares shares)
    · rw [recoverScanNoX_ok shares 0 none ∅ [] hc] at hok
      have := (Except.ok.inj hok).symm
      rw [show values = (∅ ∪ ((presentShares shares).map ShareNoX.toBytes).toFinset,
          ([] : List (ShareWithX P)) ++ noxValues 0 shares).2 from congrArg Prod.snd this]
      simp only [List.nil_append]
      rw [noxValues_eq_enumFrom, List.enum]
    · rw [recoverScanNoX_err shares 0 none ∅ [] hc] at hok
      exact absurd hok (by simp)
  · intro i hi
    show (i % 256 + 1) % 256 = i + 1
    have h1 : i % 256 = i := Nat.mod_eq_of_lt (by omega)
    rw [h1, Nat.mod_eq_of_lt (by omega)]
  · intro hcontra
    have h1 : recover_nox (P := 283) 2 [some ⟨[⟨3⟩]⟩, some ⟨[⟨2⟩]⟩, none]
        = .ok [(⟨245, by norm_num⟩ : Fin 256)] := rfl
    have h2 : recover_nox (P := 283) 2 [some ⟨[⟨3⟩]⟩, none, some ⟨[⟨2⟩]⟩]
        = .ok [(⟨142, by norm_num⟩ : Fin 256)] := rfl
    rw [h1, h2] at hcontra
    simp at hcontra

set_option maxRecDepth 10000 in
/-- C6. The dealer's evaluator emits exactly 255 shares, the i-th (0-based)
being the evaluation at `x = i + 1`; in the `share_x` build the carried
x-coordinates are exactly `1, 2, …, 255` in order and never repeat. -/
theorem get_evaluator_ordered (P : Nat) (polys : List (List (GF256 P))) :
    (get_evaluator (P := P) polys).length = 255
    ∧ (get_evaluator_withx (P := P) polys).length = 255
    ∧ (∀ i : Fin 255, (get_evaluator polys)[(i : Nat)]?
        = some ⟨polys.map (fun p => horner p (gfOfNat (i.val + 1)))⟩)
    ∧ (∀ i : Fin 255, (get_evaluator_withx polys)[(i : Nat)]?
        = some ⟨gfOfNat (i.val + 1), polys.map (fun p => horner p (gfOfNat (i.val + 1)))⟩)
    ∧ (∀ i j : Fin 255,
        (gfOfNat (P := P) (i.val + 1)) = gfOfNat (j.val + 1) → i = j) := by
  refine ⟨by simp [get_evaluator], by simp [get_evaluator_withx], ?_, ?_, ?_⟩
  · intro i
    rw [get_evaluator, List.getElem?_map]
    rw [List.getElem?_eq_getElem (by simp only [List.length_finRange]; exact i.isLt)]
    rw [show (List.finRange 255)[(i : Nat)] = i from by
      rw [← List.get_eq_getElem]
      cases i with
      | mk iv hlt => exact List.get_finRange _]
    rfl
  · intro i
    rw [get_evaluator_withx, List.getElem?_map]
    rw [List.getElem?_eq_getElem (by simp only [List.length_finRange]; exact i.isLt)]
    rw [show (List.finRange 255)[(i : Nat)] = i from by
      rw [← List.get_eq_getElem]
      cases i with
      | mk iv hlt => exact List.get_finRange _]
    rfl
  · intro i j h
    have hv : (i.val + 1) % 256 = (j.val + 1) % 256 :=
      congrArg (fun g : GF256 P => g.val.val) h
    have hi := i.isLt
    have hj := j.isLt
    rw [Nat.mod_eq_of_lt (by omega), Nat.mod_eq_of_lt (by omega)] at hv
    exact Fin.ext (by omega)

/-- C8. A With-X share serializes to `[x, y…]` (`1 + |y|` bytes); decoding a
byte string of length ≥ 2 succeeds and is a two-sided inverse of
serialization, while decoding fewer than 2 bytes fails with `TooShort`. -/
theorem sharewithx_bytes_roundtrip (P : Nat) :
    (∀ s : ShareWithX P, s.toBytes = s.x.val :: s.y.map (·.val)
      ∧ s.toBytes.length = 1 + s.y.length)
    ∧ (∀ bytes : List (Fin 256), 2 ≤ bytes.length →
        ShareWithX.fromBytes (P := P) bytes
          = .ok ⟨⟨bytes.headD 0⟩, bytes.tail.map (fun b => ⟨b⟩)⟩
        ∧ (ShareWithX.fromBytes (P := P) bytes).map ShareWithX.toBytes = .ok bytes)
    ∧ (∀ s : ShareWithX P, 1 ≤ s.y.length →
        ShareWithX.fromBytes s.toBytes = .ok s)
    ∧ (∀ bytes : List (Fin 256), bytes.length < 2 →
        ShareWithX.fromBytes (P := P) bytes = .error .tooShort) := by
  refine ⟨?_, ?_, ?_, ?_⟩
  · intro s
    exact ⟨rfl, by simp [ShareWithX.toBytes, Nat.add_comm]⟩
  · intro bytes hlen
    cases bytes with
    | nil => simp at hlen
    | cons b rest =>
      constructor
      · rw [ShareWithX.fromBytes, dif_neg (by simpa using hlen)]
        rfl
      · rw [ShareWithX.fromBytes, dif_neg (by simpa using hlen)]
        have hvm : ((fun (g : GF256 P) => g.val) ∘ fun (b : Fin 256) => (⟨b⟩ : GF256 P))
            = id := rfl
        simp [Except.map, ShareWithX.toBytes, List.map_map, hvm]
  · intro s hy
    rw [ShareWithX.fromBytes, dif_neg (by simp [ShareWithX.toBytes]; omega)]
    cases s with
    | mk x y =>
      have hmk : ((fun b => (⟨b⟩ : GF256 P)) ∘ fun (g : GF256 P) => g.val) = id := rfl
      simp only [ShareWithX.toBytes, List.head_cons, List.tail_cons, List.map_map, hmk,
        List.map_id]
  · intro bytes hlen
    rw [ShareWithX.fromBytes, dif_pos hlen]

/-- C9. The No-X x-assignment is `(i as u8) + 1` with truncation and 8-bit
wrap-around: indices 256 apart collide, and at index 255 the assigned x is 0
(the forbidden interpolation x), as the scan shows on a 256-slot input. -/
theorem nox_x_assignment_wraps :
    (∀ (P : Nat) (i : Nat),
      (gfOfNat (P := P) ((i + 256) % 256 + 1)) = gfOfNat (i % 256 + 1))
    ∧ ((gfOfNat (P := 283) (255 % 256 + 1)).val.val = 0)
    ∧ (recoverScanNoX (P := 283) 0 none ∅ []
        (List.replicate 255 none ++ [some ⟨[⟨5⟩, ⟨6⟩]⟩])
        = .ok ({ShareNoX.toBytes (P := 283) ⟨[⟨5⟩, ⟨6⟩]⟩},
            [⟨gfOfNat 256, [⟨5⟩, ⟨6⟩]⟩]))
    ∧ (gfOfNat (P := 283) 256).val.val = 0 := by
  refine ⟨?_, rfl, ?_, rfl⟩
  · intro Q i
    have : (i + 256) % 256 = i % 256 := by omega
    rw [this]
  · rfl

/-- C10. `random_polynomial` requires `k ≥ 1`: at threshold 0 the buffer size
`k - 1` underflows (a panic, modelled as `none`), so `dealer_rng` on a
nonempty secret yields no iterator; for `k ≥ 1` it returns the `k`
coefficients. The `SecretSharing` constructor accepts threshold 0 without
validation. -/
theorem random_polynomial_threshold_zero :
    (∀ (P : Nat) (s : GF256 P) (rng : Nat → GF256 P),
      random_polynomial s 0 rng = none)
    ∧ (∀ (P : Nat) (s : GF256 P) (k : Nat) (rng : Nat → GF256 P), 1 ≤ k →
        random_polynomial s k rng
          = some ((((List.range (k - 1)).map rng).reverse) ++ [s])
        ∧ (random_polynomial s k rng).isSome = true)
    ∧ (∀ (Q : Nat) (b : Fin 256) (secret : List (Fin 256)) (rng : Nat → GF256 Q),
        dealer_rng (P := Q) 0 (b :: secret) rng = none)
    ∧ (∀ t : Fin 256, ((SecretSharing.mk t : SecretSharing 283)).threshold = t) := by
  refine ⟨?_, ?_, ?_, fun _ => rfl⟩
  · intro Q s rng
    rfl
  · intro Q s k rng hk
    rw [random_polynomial, if_neg (by omega)]
    exact ⟨rfl, rfl⟩
  · intro Q b secret rng
    rfl


/-! ## Field-structure consequences and the Lagrange interpolation bridge -/

set_option linter.unusedSectionVars false

section FieldLagrange

variable [Fact (GoodPoly P)]

theorem gf_neg_eq (a : GF256 P) : -a = a := rfl

theorem gf_sub_eq (a b : GF256 P) : a - b = a + b := by
  rw [sub_eq_add_neg, gf_neg_eq]

theorem gfSub_eq (a b : GF256 P) : gfSub a b = a - b := (gf_sub_eq a b).symm

theorem gfDiv_eq (a b : GF256 P) : gfDiv a b = a / b := by
  rw [div_eq_mul_inv]
  rfl

theorem gfSum_eq_sum (l : List (GF256 P)) : gfSum l = l.sum := by
  have h : ∀ (l : List (GF256 P)) (init : GF256 P),
      l.foldl (· + ·) init = init + l.sum := by
    intro l
    induction l with
    | nil => intro init; simp
    | cons c l ih =>
      intro init
      rw [List.foldl_cons, ih, List.sum_cons, add_assoc]
  rw [gfSum, h, zero_add]

theorem gfProd_eq_prod (l : List (GF256 P)) : gfProd l = l.prod := by
  have h : ∀ (l : List (GF256 P)) (init : GF256 P),
      l.foldl (· * ·) init = init * l.prod := by
    intro l
    induction l with
    | nil => intro init; simp
    | cons c l ih =>
      intro init
      rw [List.foldl_cons, ih, List.prod_cons, mul_assoc]
  rw [gfProd, h, one_mul]

/-- The polynomial with the given coefficients, highest degree first (the
form `random_polynomial` produces and `horner` evaluates). -/
noncomputable def polyOfList (l : List (GF256 P)) : Polynomial (GF256 P) :=
  l.foldl (fun acc c => acc * Polynomial.X + Polynomial.C c) 0

theorem eval_polyOfList (l : List (GF256 P)) (t : GF256 P) :
    (polyOfList l).eval t = horner l t := by
  rw [polyOfList, horner]
  have h : ∀ (l : List (GF256 P)) (acc : Polynomial (GF256 P)),
      (l.foldl (fun acc c => acc * Polynomial.X + Polynomial.C c) acc).eval t
        = l.foldl (fun acc c => acc * t + c) (acc.eval t) := by
    intro l
    induction l with
    | nil => intro acc; rfl
    | cons c l ih =>
      intro acc
      rw [List.foldl_cons, List.foldl_cons, ih]
      simp
  rw [h]
  simp

theorem degree_polyOfList (l : List (GF256 P)) :
    (polyOfList l).degree < (l.length : ℕ) := by
  have h : ∀ (l : List (GF256 P)) (acc : Polynomial (GF256 P)) (d : ℕ),
      acc.degree < (d : ℕ) →
      (l.foldl (fun acc c => acc * Polynomial.X + Polynomial.C c) acc).degree
        < ((d + l.length : ℕ) : WithBot ℕ) := by
    intro l
    induction l with
    | nil =>
      intro acc d hd
      simpa using hd
    | cons c l ih =>
      intro acc d hd
      rw [List.foldl_cons]
      have hcast : ((d + 1 : ℕ) : WithBot ℕ) = (d : WithBot ℕ) + 1 := by push_cast; ring
      have hstep : (acc * Polynomial.X + Polynomial.C c).degree < ((d + 1 : ℕ) : WithBot ℕ) := by
        rw [hcast]
        apply lt_of_le_of_lt (Polynomial.degree_add_le _ _)
        rw [max_lt_iff]
        constructor
        · apply lt_of_le_of_lt (Polynomial.degree_mul_le _ _)
          rw [Polynomial.degree_X]
          exact WithBot.add_lt_add_right (by simp) hd
        · apply lt_of_le_of_lt (Polynomial.degree_C_le)
          have h0 : ((0 : ℕ) : WithBot ℕ) < ((d + 1 : ℕ) : WithBot ℕ) := by
            exact_mod_cast Nat.succ_pos d
          simpa [hcast] using h0
      have := ih (acc * Polynomial.X + Polynomial.C c) (d + 1) hstep
      have harith : d + 1 + l.length = d + (l.length + 1) := by omega
      rw [harith] at this
      simpa using this
  have h0 : (0 : Polynomial (GF256 P)).degree < ((0 : ℕ) : WithBot ℕ) := by
    simp [Polynomial.degree_zero]
  simpa using h l 0 0 h0

theorem horner_zero_append (l : List (GF256 P)) (s : GF256 P) :
    horner (l ++ [s]) 0 = s := by
  rw [horner, List.foldl_append]
  have hlast : ∀ (acc : GF256 P),
      List.foldl (fun acc c => acc * (0 : GF256 P) + c) acc [s] = s := by
    intro acc
    simp
  rw [hlast]

theorem list_map_sum_fin (l : List α) (g : α → GF256 P) :
    (l.map g).sum = ∑ i : Fin l.length, g (l.get i) := by
  conv_lhs => rw [← List.ofFn_get l]
  rw [List.map_ofFn, List.sum_ofFn]
  rfl

theorem list_map_prod_fin (l : List α) (g : α → GF256 P) :
    (l.map g).prod = ∏ i : Fin l.length, g (l.get i) := by
  conv_lhs => rw [← List.ofFn_get l]
  rw [List.map_ofFn, List.prod_ofFn]
  rfl

theorem filter_map_prod_ite (l : List α) (p : α → Prop) [DecidablePred p]
    (g : α → GF256 P) :
    ((l.filter (fun a => p a)).map g).prod
      = (l.map (fun a => if p a then g a else 1)).prod := by
  induction l with
  | nil => rfl
  | cons a l ih =>
    by_cases h : p a
    · rw [List.filter_cons_of_pos (by simpa using h), List.map_cons, List.prod_cons,
        ih, List.map_cons, List.prod_cons, if_pos h]
    · rw [List.filter_cons_of_neg (by simpa using h), ih, List.map_cons,
        List.prod_cons, if_neg h, one_mul]

/-- The per-byte sum computed by `interpolate` equals `q.eval 0` whenever the
shares are points of the polynomial `q` of degree below the share count. -/
theorem interpolate_byte_eq (values : List (ShareWithX P))
    (hx : ∀ i j : Fin values.length, (values.get i).x = (values.get j).x → i = j)
    (q : Polynomial (GF256 P)) (hdeg : q.degree < (values.length : ℕ))
    (s : ℕ)
    (hy : ∀ i : Fin values.length, (values.get i).y.getD s 0 = q.eval (values.get i).x) :
    gfSum (values.map (fun si =>
      gfProd ((values.filter (fun sj => sj.x ≠ si.x)).map
        (fun sj => gfDiv sj.x (gfSub sj.x si.x))) * si.y.getD s 0))
      = q.eval 0 := by
  classical
  set n := values.length with hn
  set v : Fin n → GF256 P := fun i => (values.get i).x with hv
  have hinj : Set.InjOn v ↑(Finset.univ : Finset (Fin n)) :=
    fun i _ j _ h => hx i j h
  have hterm : ∀ i : Fin n,
      gfProd ((values.filter (fun sj => sj.x ≠ (values.get i).x)).map
        (fun sj => gfDiv sj.x (gfSub sj.x (values.get i).x)))
        = Polynomial.eval 0 (Lagrange.basis Finset.univ v i) := by
    intro i
    rw [gfProd_eq_prod, filter_map_prod_ite values
      (fun sj => sj.x ≠ (values.get i).x)
      (fun sj => gfDiv sj.x (gfSub sj.x (values.get i).x)), list_map_prod_fin]
    have hset : Finset.univ.filter
        (fun j : Fin n => (values.get j).x ≠ (values.get i).x)
        = Finset.univ.erase i := by
      ext j
      simp only [Finset.mem_filter, Finset.mem_univ, true_and, Finset.mem_erase,
        and_true]
      constructor
      · intro hne hji
        exact hne (by rw [hji])
      · intro hji hxe
        exact hji (hx j i hxe)
    calc (∏ j : Fin n, if (values.get j).x ≠ (values.get i).x
            then gfDiv (values.get j).x (gfSub (values.get j).x (values.get i).x)
            else 1)
        = ∏ j ∈ Finset.univ.filter
            (fun j : Fin n => (values.get j).x ≠ (values.get i).x),
            gfDiv (values.get j).x (gfSub (values.get j).x (values.get i).x) :=
          (Finset.prod_filter _ _).symm
      _ = ∏ j ∈ Finset.univ.erase i,
            gfDiv (values.get j).x (gfSub (values.get j).x (values.get i).x) := by
          rw [hset]
      _ = Polynomial.eval 0 (Lagrange.basis Finset.univ v i) := by
          rw [Lagrange.basis, Polynomial.eval_prod]
          apply Finset.prod_congr rfl
          intro j _
          rw [gfDiv_eq, gfSub_eq]
          have hbd : Polynomial.eval 0 (Lagrange.basisDivisor (v i) (v j))
              = (v i - v j)⁻¹ * (0 - v j) := by
            simp [Lagrange.basisDivisor]
          rw [hbd, gf_sub_eq (v i) (v j), zero_sub, gf_neg_eq]
          rw [div_eq_mul_inv, gf_sub_eq, add_comm (v i) (v j), mul_comm]
  have hq : q = Lagrange.interpolate Finset.univ v (fun i => q.eval (v i)) := by
    apply Lagrange.eq_interpolate hinj
    simpa [Finset.card_univ] using hdeg
  rw [gfSum_eq_sum, list_map_sum_fin]
  calc (∑ i : Fin n,
        gfProd ((values.filter (fun sj => sj.x ≠ (values.get i).x)).map
          (fun sj => gfDiv sj.x (gfSub sj.x (values.get i).x)))
          * (values.get i).y.getD s 0)
      = ∑ i : Fin n, Polynomial.eval 0 (Lagrange.basis Finset.univ v i)
          * q.eval (v i) := by
        apply Finset.sum_congr rfl
        intro i _
        rw [hterm i, hy i]
    _ = Polynomial.eval 0 (Lagrange.interpolate Finset.univ v
          (fun i => q.eval (v i))) := by
        rw [Lagrange.interpolate_apply, Polynomial.eval_finset_sum]
        apply Finset.sum_congr rfl
        intro i _
        rw [Polynomial.eval_mul, Polynomial.eval_C, mul_comm]
    _ = q.eval 0 := by rw [← hq]

theorem foldl_range_add (n : Nat) (F : Nat → GF256 P) :
    ∀ init, (List.range n).foldl (fun acc i => acc + F i) init
      = init + ∑ i ∈ Finset.range n, F i := by
  induction n with
  | zero => intro init; simp
  | succ n ih =>
    intro init
    rw [List.range_succ, List.foldl_append, ih, List.foldl_cons, List.foldl_nil,
      Finset.sum_range_succ, add_assoc]

theorem foldl_range_basis (n i : Nat) (G : Nat → GF256 P) :
    (List.range n).foldl (fun basis j => if i = j then basis else basis * G j) 1
      = ∏ j ∈ (Finset.range n).erase i, G j := by
  have h : ∀ init, (List.range n).foldl
      (fun basis j => if i = j then basis else basis * G j) init
      = init * ∏ j ∈ (Finset.range n).erase i, G j := by
    induction n with
    | zero => intro init; simp
    | succ n ih =>
      intro init
      rw [List.range_succ, List.foldl_append, ih, List.foldl_cons, List.foldl_nil]
      by_cases hin : i = n
      · subst hin
        rw [if_pos rfl]
        congr 1
        rw [Finset.range_succ, Finset.erase_insert (Finset.not_mem_range_self)]
        rw [Finset.erase_eq_of_not_mem (Finset.not_mem_range_self)]
      · rw [if_neg hin]
        rw [Finset.range_succ, Finset.erase_insert_of_ne (fun h => hin h.symm),
          Finset.prod_insert (fun hmem => Finset.not_mem_range_self
            (Finset.mem_of_mem_erase hmem)), mul_assoc, mul_comm (G n)]
  rw [h, one_mul]

theorem getD_eq_get (l : List α) (d : α) (i : Nat) (h : i < l.length) :
    l.getD i d = l.get ⟨i, h⟩ := by
  rw [List.getD_eq_getElem?_getD, List.getElem?_eq_getElem h]
  rfl

/-- `interpolate_polynomial` is the evaluation of the Lagrange interpolant of
its sample points. -/
theorem interpolate_polynomial_eval (xs ys : List (GF256 P)) (x : GF256 P) :
    interpolate_polynomial xs ys x = Polynomial.eval x
      (Lagrange.interpolate (Finset.range xs.length)
        (fun j => xs.getD j 0) (fun j => ys.getD j 0)) := by
  classical
  rw [interpolate_polynomial, foldl_range_add, zero_add]
  rw [Lagrange.interpolate_apply, Polynomial.eval_finset_sum]
  apply Finset.sum_congr rfl
  intro i hi
  rw [Polynomial.eval_mul, Polynomial.eval_C, foldl_range_basis]
  congr 1
  rw [Lagrange.basis, Polynomial.eval_prod]
  apply Finset.prod_congr rfl
  intro j _
  have hbd : Polynomial.eval x (Lagrange.basisDivisor (xs.getD i 0) (xs.getD j 0))
      = (xs.getD i 0 - xs.getD j 0)⁻¹ * (x - xs.getD j 0) := by
    simp [Lagrange.basisDivisor]
  rw [hbd, gfDiv_eq, div_eq_mul_inv, gf_sub_eq, gf_sub_eq, mul_comm,
    add_comm (xs.getD i 0) (xs.getD j 0)]

/-- Evaluating `interpolate_polynomial` at one of its (pairwise distinct)
sample x-coordinates returns the matching sample y. -/
theorem interpolate_polynomial_at_node (xs ys : List (GF256 P))
    (hx : ∀ i j : Fin xs.length, xs.get i = xs.get j → i = j)
    (t : Fin xs.length) :
    interpolate_polynomial xs ys (xs.get t) = ys.getD t 0 := by
  classical
  have hinj : Set.InjOn (fun j => xs.getD j 0) ↑(Finset.range xs.length) := by
    intro a ha b hb hab
    simp only [Finset.coe_range, Set.mem_Iio] at ha hb
    have hab' : xs.getD a 0 = xs.getD b 0 := hab
    rw [getD_eq_get xs 0 a ha, getD_eq_get xs 0 b hb] at hab'
    have := hx ⟨a, ha⟩ ⟨b, hb⟩ hab'
    exact congrArg Fin.val this
  have hmem : (t : ℕ) ∈ Finset.range xs.length := Finset.mem_range.mpr t.isLt
  rw [interpolate_polynomial_eval]
  have hnode : xs.get t = (fun j => xs.getD j 0) (t : ℕ) :=
    (getD_eq_get xs 0 t t.isLt).symm
  rw [hnode, Lagrange.eval_interpolate_at_node _ hinj hmem]

end FieldLagrange

theorem map_range_getD (l : List α) (d : α) :
    (List.range l.length).map (fun i => l.getD i d) = l := by
  apply List.ext_getElem (by simp)
  intro i h1 h2
  rw [List.getElem_map, List.getElem_range]
  rw [getD_eq_get l d i h2]
  rfl

/-- C5. Resharing is idempotent on input points: for a valid set of input
shares (2 to 255 shares, pairwise-distinct x, equal y lengths) and a target
index whose byte equals the x-coordinate of input share `t`, `reshare`
returns precisely that share. -/
theorem reshare_idempotent (P : Nat) [Fact (GoodPoly P)]
    (shares : List (GF256 P × ShareNoX P))
    (h2 : 2 ≤ shares.length) (h255 : shares.length ≤ 255)
    (hx : ∀ i j : Fin shares.length, (shares.get i).1 = (shares.get j).1 → i = j)
    (L : ℕ) (hy : ∀ p ∈ shares, p.2.y.length = L)
    (index : Nat) (t : Fin shares.length)
    (hidx : gfOfNat (P := P) index = (shares.get t).1) :
    reshare shares index = some (shares.get t).2 := by
  obtain ⟨s0, rest, rfl⟩ := List.exists_cons_of_ne_nil
    (show shares ≠ [] by intro h; rw [h] at h2; simp at h2)
  · rw [show reshare (s0 :: rest) index
        = if 2 ≤ (s0 :: rest).length ∧ (s0 :: rest).length ≤ 255 then
            some ⟨(List.range s0.2.y.length).map (fun i =>
              interpolate_polynomial ((s0 :: rest).map (·.1))
                ((s0 :: rest).map (fun sh => sh.2.y.getD i 0)) (gfOfNat index))⟩
          else none
      from rfl, if_pos ⟨h2, h255⟩]
    have hL0 : s0.2.y.length = L := hy s0 (List.mem_cons_self _ _)
    set xs := (s0 :: rest).map (·.1) with hxs
    have hlenxs : xs.length = (s0 :: rest).length := List.length_map _ _
    have hxinj : ∀ i j : Fin xs.length, xs.get i = xs.get j → i = j := by
      intro i j hij
      have hi : (i : ℕ) < (s0 :: rest).length := by rw [← hlenxs]; exact i.isLt
      have hj : (j : ℕ) < (s0 :: rest).length := by rw [← hlenxs]; exact j.isLt
      have hgi : xs.get i = ((s0 :: rest).get ⟨i, hi⟩).1 := by
        rw [List.get_eq_getElem, List.get_eq_getElem]
        simp only [hxs, List.getElem_map]
      have hgj : xs.get j = ((s0 :: rest).get ⟨j, hj⟩).1 := by
        rw [List.get_eq_getElem, List.get_eq_getElem]
        simp only [hxs, List.getElem_map]
      rw [hgi, hgj] at hij
      have hfin := hx ⟨i, hi⟩ ⟨j, hj⟩ hij
      have hv : (i : ℕ) = (j : ℕ) := congrArg (fun x : Fin (s0 :: rest).length => (x : ℕ)) hfin
      exact Fin.ext hv
    have ht2 : (t : ℕ) < xs.length := by rw [hlenxs]; exact t.isLt
    have hnodex : xs.get ⟨t, ht2⟩ = gfOfNat index := by
      rw [hidx]
      rw [List.get_eq_getElem, List.get_eq_getElem]
      simp only [hxs, List.getElem_map]
    congr 1
    show (⟨(List.range s0.2.y.length).map _⟩ : ShareNoX P) = _
    have hyt : ((s0 :: rest).get t).2.y.length = L :=
      hy _ (by rw [List.get_eq_getElem]; exact List.getElem_mem _)
    cases hgt : (s0 :: rest).get t with
    | mk xt sht =>
      show _ = (⟨sht.y⟩ : ShareNoX P)
      congr 1
      rw [hL0]
      have hcol : ∀ i : ℕ, interpolate_polynomial xs
          ((s0 :: rest).map (fun sh => sh.2.y.getD i 0)) (gfOfNat index)
          = sht.y.getD i 0 := by
        intro i
        rw [← hnodex, interpolate_polynomial_at_node xs _ hxinj ⟨t, ht2⟩]
        have hlys : ((s0 :: rest).map (fun sh => sh.2.y.getD i 0)).length
            = (s0 :: rest).length := List.length_map _ _
        have htl : (t : ℕ) < ((s0 :: rest).map (fun sh => sh.2.y.getD i 0)).length := by
          rw [hlys]; exact t.isLt
        rw [getD_eq_get _ _ _ htl]
        rw [List.get_eq_getElem]
        simp only [List.getElem_map]
        rw [show (s0 :: rest)[(t : ℕ)] = (s0 :: rest).get t from rfl, hgt]
      have hylen : sht.y.length = L := by
        have := hyt
        rw [hgt] at this
        exact this
      calc (List.range L).map (fun i => interpolate_polynomial xs
            ((s0 :: rest).map (fun sh => sh.2.y.getD i 0)) (gfOfNat index))
          = (List.range L).map (fun i => sht.y.getD i 0) := by
            apply List.map_congr_left
            intro i _
            exact hcol i
        _ = sht.y := by rw [← hylen, map_range_getD]

/-- Witness for `reshare_idempotent` at a concrete input. -/
theorem reshare_idempotent_witness :
    reshare (P := 283)
      [(⟨⟨1, by norm_num⟩⟩, ⟨[⟨4⟩]⟩), (⟨⟨2, by norm_num⟩⟩, ⟨[⟨7⟩]⟩)] 2
      = some ⟨[⟨7⟩]⟩ := by
  have h := reshare_idempotent 283
    [(⟨⟨1, by norm_num⟩⟩, ⟨[⟨4⟩]⟩), (⟨⟨2, by norm_num⟩⟩, ⟨[⟨7⟩]⟩)]
    (by norm_num) (by norm_num) (by decide) 1 (by decide) 2 ⟨1, by norm_num⟩
    (by decide)
  simpa using h

/-- The per-byte polynomials `dealer_rng` constructs: for the i-th secret byte,
the k−1 drawn coefficients (in reverse draw order) followed by the byte. -/
def dealerPolys (k : Nat) (secret : List (Fin 256)) (rng : Nat → GF256 P) :
    List (List (GF256 P)) :=
  secret.enum.map (fun ib =>
    (((List.range (k - 1)).map (fun j => rng (ib.1 * (k - 1) + j))).reverse)
      ++ [⟨ib.2⟩])

theorem mapM_option_eq_map {α β : Type} (f : α → Option β) (g : α → β)
    (l : List α) (h : ∀ x ∈ l, f x = some (g x)) : l.mapM f = some (l.map g) := by
  induction l with
  | nil => rfl
  | cons a l ih =>
    rw [List.mapM_cons, h a (List.mem_cons_self _ _),
      ih (fun x hx => h x (List.mem_cons_of_mem _ hx))]
    rfl

theorem dealer_rng_withx_eq (k : Nat) (hk : 1 ≤ k) (secret : List (Fin 256))
    (rng : Nat → GF256 P) :
    dealer_rng_withx k secret rng
      = some (get_evaluator_withx (dealerPolys k secret rng)) := by
  rw [dealer_rng_withx, mapM_option_eq_map _
    (fun ib => (((List.range (k - 1)).map
      (fun j => rng (ib.1 * (k - 1) + j))).reverse) ++ [(⟨ib.2⟩ : GF256 P)])
    _ (fun ib _ => by rw [random_polynomial, if_neg (by omega)])]
  rfl

theorem dealer_rng_nox_eq (k : Nat) (hk : 1 ≤ k) (secret : List (Fin 256))
    (rng : Nat → GF256 P) :
    dealer_rng k secret rng
      = some (get_evaluator (dealerPolys k secret rng)) := by
  rw [dealer_rng, mapM_option_eq_map _
    (fun ib => (((List.range (k - 1)).map
      (fun j => rng (ib.1 * (k - 1) + j))).reverse) ++ [(⟨ib.2⟩ : GF256 P)])
    _ (fun ib _ => by rw [random_polynomial, if_neg (by omega)])]
  rfl

theorem dealerPolys_length (k : Nat) (secret : List (Fin 256))
    (rng : Nat → GF256 P) : (dealerPolys k secret rng).length = secret.length := by
  rw [dealerPolys, List.length_map, List.enum_length]

theorem dealerPolys_getElem (k : Nat) (secret : List (Fin 256))
    (rng : Nat → GF256 P) (s : Nat) (hs : s < secret.length) :
    (dealerPolys k secret rng).getD s []
      = (((List.range (k - 1)).map (fun j => rng (s * (k - 1) + j))).reverse)
        ++ [⟨secret.get ⟨s, hs⟩⟩] := by
  have hlen : s < (dealerPolys k secret rng).length := by
    rw [dealerPolys_length]; exact hs
  rw [getD_eq_get _ _ _ hlen]
  simp only [List.get_eq_getElem, dealerPolys, List.getElem_map, List.getElem_enum]

theorem dealerPolys_getD_length (k : Nat) (hk : 1 ≤ k) (secret : List (Fin 256))
    (rng : Nat → GF256 P) (s : Nat) (hs : s < secret.length) :
    ((dealerPolys k secret rng).getD s []).length = k := by
  rw [dealerPolys_getElem k secret rng s hs]
  simp
  omega

theorem get_evaluator_withx_length (polys : List (List (GF256 P))) :
    (get_evaluator_withx polys).length = 255 := by
  simp [get_evaluator_withx]

theorem get_evaluator_nox_length (polys : List (List (GF256 P))) :
    (get_evaluator polys).length = 255 := by
  simp [get_evaluator]

set_option maxRecDepth 10000 in
theorem get_evaluator_withx_getElem (polys : List (List (GF256 P))) (m : Nat)
    (hm : m < (get_evaluator_withx polys).length) :
    (get_evaluator_withx polys)[m]
      = ⟨gfOfNat (m + 1), polys.map (fun p => horner p (gfOfNat (m + 1)))⟩ := by
  have hm' : m < 255 := by rwa [get_evaluator_withx_length] at hm
  have h1 : (get_evaluator_withx polys)[m]?
      = some ⟨gfOfNat (m + 1), polys.map (fun p => horner p (gfOfNat (m + 1)))⟩ := by
    rw [get_evaluator_withx, List.getElem?_map]
    rw [show (List.finRange 255)[m]? = some (⟨m, hm'⟩ : Fin 255) from by
      rw [List.getElem?_eq_getElem (by simpa using hm')]
      exact congrArg some ((List.get_eq_getElem _ ⟨m, by simpa using hm'⟩).symm.trans
        (List.get_finRange (by simpa using hm')))]
    rfl
  have h2 := List.getElem?_eq_getElem hm
  rw [h1] at h2
  exact (Option.some.inj h2).symm

set_option maxRecDepth 10000 in
theorem get_evaluator_nox_getElem (polys : List (List (GF256 P))) (m : Nat)
    (hm : m < (get_evaluator polys).length) :
    (get_evaluator polys)[m]
      = ⟨polys.map (fun p => horner p (gfOfNat (m + 1)))⟩ := by
  have hm' : m < 255 := by rwa [get_evaluator_nox_length] at hm
  have h1 : (get_evaluator polys)[m]?
      = some ⟨polys.map (fun p => horner p (gfOfNat (m + 1)))⟩ := by
    rw [get_evaluator, List.getElem?_map]
    rw [show (List.finRange 255)[m]? = some (⟨m, hm'⟩ : Fin 255) from by
      rw [List.getElem?_eq_getElem (by simpa using hm')]
      exact congrArg some ((List.get_eq_getElem _ ⟨m, by simpa using hm'⟩).symm.trans
        (List.get_finRange (by simpa using hm')))]
    rfl
  have h2 := List.getElem?_eq_getElem hm
  rw [h1] at h2
  exact (Option.some.inj h2).symm

theorem gfOfNat_inj_of_le (a b : Nat) (ha : a ≤ 255) (hb : b ≤ 255)
    (h : gfOfNat (P := P) a = gfOfNat b) : a = b := by
  have hv : a % 256 = b % 256 := congrArg (fun g : GF256 P => g.val.val) h
  rwa [Nat.mod_eq_of_lt (by omega), Nat.mod_eq_of_lt (by omega)] at hv

/-- Interpolating any `k` pairwise-distinct dealer points (at their correct
x-coordinates) returns the dealt secret. -/
theorem interpolate_dealer_points [Fact (GoodPoly P)] (k : Nat) (hk : 1 ≤ k)
    (secret : List (Fin 256)) (rng : Nat → GF256 P)
    (values : List (ShareWithX P)) (hlen : values.length = k)
    (idx : Fin values.length → Fin 255)
    (hinj : Function.Injective idx)
    (hval : ∀ i : Fin values.length, values.get i
      = ⟨gfOfNat ((idx i).val + 1), (dealerPolys k secret rng).map
          (fun p => horner p (gfOfNat ((idx i).val + 1)))⟩) :
    interpolate values = secret := by
  obtain ⟨v0, vrest, rfl⟩ := List.exists_cons_of_ne_nil
    (show values ≠ [] by intro h; rw [h] at hlen; simp at hlen; omega)
  have hy0 : v0.y.length = secret.length := by
    have h0 := hval ⟨0, by simp⟩
    have : v0 = (v0 :: vrest).get ⟨0, by simp⟩ := rfl
    rw [this, h0]
    simp [dealerPolys_length]
  rw [show interpolate (v0 :: vrest)
      = (List.range v0.y.length).map (fun s =>
        (gfSum ((v0 :: vrest).map (fun si =>
          gfProd (((v0 :: vrest).filter (fun sj => sj.x ≠ si.x)).map
            (fun sj => gfDiv sj.x (gfSub sj.x si.x))) *
          si.y.getD s 0))).val)
    from rfl]
  apply List.ext_getElem (by simp [hy0])
  intro s hs1 hs2
  have hslen : s < secret.length := hs2
  rw [List.getElem_map, List.getElem_range]
  have hxval : ∀ i : Fin (v0 :: vrest).length,
      ((v0 :: vrest).get i).x = gfOfNat ((idx i).val + 1) := by
    intro i
    rw [hval i]
  have hx : ∀ i j : Fin (v0 :: vrest).length,
      ((v0 :: vrest).get i).x = ((v0 :: vrest).get j).x → i = j := by
    intro i j hij
    rw [hxval i, hxval j] at hij
    have h1 := (idx i).isLt
    have h2 := (idx j).isLt
    have hv := gfOfNat_inj_of_le _ _ (by omega) (by omega) hij
    have heq : idx i = idx j := Fin.ext (by omega)
    exact hinj heq
  have hcoef := dealerPolys_getElem k secret rng s hslen
  have hdeg : (polyOfList ((dealerPolys k secret rng).getD s [])).degree
      < ((v0 :: vrest).length : ℕ) := by
    have h1 := degree_polyOfList (P := P) ((dealerPolys k secret rng).getD s [])
    rw [dealerPolys_getD_length k hk secret rng s hslen] at h1
    rwa [hlen]
  have hy : ∀ i : Fin (v0 :: vrest).length,
      ((v0 :: vrest).get i).y.getD s 0
        = (polyOfList ((dealerPolys k secret rng).getD s [])).eval
            ((v0 :: vrest).get i).x := by
    intro i
    rw [eval_polyOfList, hval i]
    show ((dealerPolys k secret rng).map
        (fun p => horner p (gfOfNat ((idx i).val + 1)))).getD s 0
      = horner ((dealerPolys k secret rng).getD s []) (gfOfNat ((idx i).val + 1))
    have hsp : s < ((dealerPolys k secret rng).map
        (fun p => horner p (gfOfNat ((idx i).val + 1)))).length := by
      rw [List.length_map, dealerPolys_length]
      exact hslen
    rw [getD_eq_get _ _ _ hsp, List.get_eq_getElem, List.getElem_map]
    congr 1
    have hsp2 : s < (dealerPolys k secret rng).length := by
      rw [dealerPolys_length]
      exact hslen
    rw [getD_eq_get _ _ _ hsp2]
    rfl
  have hmain := interpolate_byte_eq (v0 :: vrest) hx
    (polyOfList ((dealerPolys k secret rng).getD s [])) hdeg s hy
  rw [hmain, eval_polyOfList, hcoef, horner_zero_append]
  rfl

theorem presentShares_map_some (l : List α) : presentShares (l.map some) = l := by
  rw [presentShares, List.filterMap_map]
  exact List.filterMap_some l

theorem noxValues_length (sel : List (Option (ShareNoX P))) :
    ∀ i, (noxValues i sel).length = (presentShares sel).length := by
  induction sel with
  | nil => intro i; rfl
  | cons hd tl ih =>
    intro i
    cases hd with
    | none => simpa [noxValues] using ih (i + 1)
    | some sh => simpa [noxValues] using ih (i + 1)

theorem presentShares_getD (sel : List (Option α)) (a : α)
    (ha : a ∈ presentShares sel) :
    ∃ p, p < sel.length ∧ sel.getD p none = some a := by
  rw [presentShares, List.mem_filterMap] at ha
  obtain ⟨x, hx, hxa⟩ := ha
  obtain ⟨p, hp, hpe⟩ := List.getElem_of_mem hx
  refine ⟨p, hp, ?_⟩
  rw [List.getD_eq_getElem?_getD, List.getElem?_eq_getElem hp, hpe]
  exact hxa

/-- Each element of `noxValues i sel` comes from a present share at a source
slot `pos j`, carries `x = GF256((pos j) as u8 + 1)`, and the slots are
strictly increasing in `j`. -/
theorem noxValues_pos (sel : List (Option (ShareNoX P))) :
    ∀ i : Nat, ∃ pos : Nat → Nat,
      (∀ j, j < (noxValues i sel).length →
        i ≤ pos j ∧ pos j - i < sel.length ∧
        ∃ sh : ShareNoX P, sel.getD (pos j - i) none = some sh ∧
          (noxValues i sel).getD j ⟨0, []⟩
            = ⟨gfOfNat (pos j % 256 + 1), sh.y⟩)
      ∧ (∀ j1 j2, j1 < j2 → j2 < (noxValues i sel).length → pos j1 < pos j2) := by
  induction sel with
  | nil =>
    intro i
    refine ⟨fun _ => 0, ?_, ?_⟩
    · intro j hj
      exact absurd hj (by simp [noxValues])
    · intro j1 j2 _ hj2
      exact absurd hj2 (by simp [noxValues])
  | cons hd tl ih =>
    intro i
    cases hd with
    | none =>
      obtain ⟨pos, h1, h2⟩ := ih (i + 1)
      refine ⟨pos, ?_, ?_⟩
      · intro j hj
        have hj' : j < (noxValues (i + 1) tl).length := by
          simpa [noxValues] using hj
        obtain ⟨hge, hlt, sh, hget, hval⟩ := h1 j hj'
        refine ⟨by omega, ?_, sh, ?_, ?_⟩
        · simp only [List.length_cons]
          omega
        · show (none :: tl).getD (pos j - i) none = some sh
          rw [show pos j - i = (pos j - (i + 1)) + 1 by omega]
          exact hget
        · simpa [noxValues] using hval
      · intro j1 j2 hlt hj2
        exact h2 j1 j2 hlt (by simpa [noxValues] using hj2)
    | some sh0 =>
      obtain ⟨pos, h1, h2⟩ := ih (i + 1)
      refine ⟨fun j => Nat.casesOn j i (fun j' => pos j'), ?_, ?_⟩
      · intro j hj
        cases j with
        | zero =>
          refine ⟨le_refl i, ?_, sh0, ?_, ?_⟩
          · show i - i < (some sh0 :: tl).length
            simp only [List.length_cons]
            omega
          · show (some sh0 :: tl).getD (i - i) none = some sh0
            rw [Nat.sub_self]
            rfl
          · show (noxValues i (some sh0 :: tl)).getD 0 ⟨0, []⟩
              = ⟨gfOfNat (i % 256 + 1), sh0.y⟩
            rfl
        | succ j' =>
          have hj' : j' < (noxValues (i + 1) tl).length := by
            simpa [noxValues] using hj
          obtain ⟨hge, hlt, sh, hget, hval⟩ := h1 j' hj'
          refine ⟨show i ≤ pos j' by omega, ?_, sh, ?_, ?_⟩
          · show pos j' - i < (some sh0 :: tl).length
            simp only [List.length_cons]
            omega
          · show (some sh0 :: tl).getD (pos j' - i) none = some sh
            rw [show pos j' - i = (pos j' - (i + 1)) + 1 by omega]
            exact hget
          · simpa [noxValues] using hval
      · intro j1 j2 hlt hj2
        cases j1 with
        | zero =>
          cases j2 with
          | zero => omega
          | succ j2' =>
            have hj2' : j2' < (noxValues (i + 1) tl).length := by
              simpa [noxValues] using hj2
            have := (h1 j2' hj2').1
            show i < pos j2'
            omega
        | succ j1' =>
          cases j2 with
          | zero => omega
          | succ j2' =>
            have hj2' : j2' < (noxValues (i + 1) tl).length := by
              simpa [noxValues] using hj2
            exact h2 j1' j2' (by omega) hj2'

theorem mem_get_evaluator_withx_y_length (polys : List (List (GF256 P)))
    (s : ShareWithX P) (hs : s ∈ get_evaluator_withx polys) :
    s.y.length = polys.length := by
  obtain ⟨m, hm, hme⟩ := List.getElem_of_mem hs
  rw [get_evaluator_withx_getElem polys m hm] at hme
  rw [← hme]
  simp

theorem sharewithx_toBytes_inj :
    Function.Injective (ShareWithX.toBytes (P := P)) := by
  intro a b h
  obtain ⟨hx, hy⟩ := List.cons.inj
    (show a.x.val :: a.y.map (fun g => g.val)
        = b.x.val :: b.y.map (fun g => g.val) from h)
  have hvalinj : Function.Injective (fun g : GF256 P => g.val) :=
    fun u v huv => GF256.ext_val (congrArg Fin.val huv)
  cases a with
  | mk ax ay =>
    cases b with
    | mk bx bby =>
      congr 1
      · exact GF256.ext_val (congrArg Fin.val hx)
      · exact List.map_injective_iff.mpr hvalinj hy

set_option maxRecDepth 10000 in
/-- C1 (amended). Dealing then recovering round-trips with the caveats the
code imposes. In the `share_x` build: for any threshold `k ∈ [1, 255]`, any
nonempty secret and any `k`-element subset (sublist) of the dealer's emitted
shares, `recover` returns the dealt secret. In the default build the same
holds only when each selected share occupies the option-slot equal to its
emission position (so the positional x-assignment reconstructs its original
x) and the selected shares serialize distinctly. -/
theorem dealer_recover_roundtrip (P : Nat) [Fact (GoodPoly P)] (k : Nat)
    (hk1 : 1 ≤ k) (hk255 : k ≤ 255) (secret : List (Fin 256))
    (_hsec : 1 ≤ secret.length) (rng : Nat → GF256 P) :
    (∀ allSh : List (ShareWithX P),
      dealer_rng_withx k secret rng = some allSh →
      ∀ sub : List (ShareWithX P), sub.Sublist allSh → sub.length = k →
        recover_withx k (sub.map some) = .ok secret)
    ∧ (∀ allSh : List (ShareNoX P),
        dealer_rng k secret rng = some allSh →
        ∀ sel : List (Option (ShareNoX P)), sel.length ≤ 255 →
        (∀ p sh, sel.getD p none = some sh → sh = allSh.getD p ⟨[]⟩) →
        (presentShares sel).length = k →
        ((presentShares sel).map ShareNoX.toBytes).Nodup →
        recover_nox k sel = .ok secret) := by
  constructor
  · intro allSh hall sub hsub hsubk
    have hall' : allSh = get_evaluator_withx (dealerPolys k secret rng) :=
      Option.some.inj (hall.symm.trans (dealer_rng_withx_eq k hk1 secret rng))
    subst hall'
    obtain ⟨f, hf⟩ := List.sublist_iff_exists_fin_orderEmbedding_get_eq.mp hsub
    have h255 : (get_evaluator_withx (dealerPolys k secret rng)).length = 255 :=
      get_evaluator_withx_length _
    have hget : ∀ i : Fin sub.length,
        sub.get i = ⟨gfOfNat ((f i : Nat) + 1),
          (dealerPolys k secret rng).map
            (fun p => horner p (gfOfNat ((f i : Nat) + 1)))⟩ := by
      intro i
      rw [hf i, List.get_eq_getElem, get_evaluator_withx_getElem]
    have hcompat : lenCompat none
        ((presentShares (sub.map some)).map (fun s => (⟨s.y⟩ : ShareNoX P))) := by
      rw [presentShares_map_some]
      apply lenCompat_none_of_sameYLen
      intro a ha b hb
      obtain ⟨sa, hsa, rfl⟩ := List.mem_map.mp ha
      obtain ⟨sb, hsb, rfl⟩ := List.mem_map.mp hb
      show sa.y.length = sb.y.length
      rw [mem_get_evaluator_withx_y_length _ sa (hsub.subset hsa),
        mem_get_evaluator_withx_y_length _ sb (hsub.subset hsb)]
    have hsubnodup : sub.Nodup := by
      rw [List.nodup_iff_injective_get]
      intro i j hij
      have hx := congrArg ShareWithX.x hij
      rw [hget i, hget j] at hx
      have hvx : ((f i : Nat) + 1) = ((f j : Nat) + 1) :=
        gfOfNat_inj_of_le _ _
          (by have h1 := (f i).isLt; omega)
          (by have h1 := (f j).isLt; omega) hx
      exact f.injective (Fin.ext (by omega))
    have hmn : (sub.map ShareWithX.toBytes).Nodup :=
      hsubnodup.map sharewithx_toBytes_inj
    have hcard : ((sub.map ShareWithX.toBytes).toFinset).card = k := by
      rw [List.toFinset_card_of_nodup hmn, List.length_map, hsubk]
    have hitp := interpolate_dealer_points k hk1 secret rng sub hsubk
      (fun i => ⟨(f i : Nat), by have h1 := (f i).isLt; omega⟩)
      (fun i j hij => f.injective (Fin.ext (congrArg Fin.val hij)))
      (fun i => hget i)
    rw [recover_withx_eq k (sub.map some) hcompat, presentShares_map_some]
    have hcond : ¬ ((sub.map ShareWithX.toBytes).toFinset = ∅
        ∨ ((sub.map ShareWithX.toBytes).toFinset).card < k) := by
      rw [not_or]
      constructor
      · intro h0
        rw [h0] at hcard
        simp at hcard
        omega
      · omega
    rw [if_neg hcond, hitp]
  · intro allSh hall sel hsel255 hsel hk hnodup
    have hall' : allSh = get_evaluator (dealerPolys k secret rng) :=
      Option.some.inj (hall.symm.trans (dealer_rng_nox_eq k hk1 secret rng))
    subst hall'
    have hylen : ∀ a ∈ presentShares sel,
        a.y.length = (dealerPolys k secret rng).length := by
      intro a ha
      obtain ⟨p, hp, hpd⟩ := presentShares_getD sel a ha
      have hsa := hsel p a hpd
      have hp255 : p < 255 := by omega
      rw [hsa, getD_eq_get _ _ _
        (show p < (get_evaluator (dealerPolys k secret rng)).length by
          rw [get_evaluator_nox_length]; exact hp255),
        List.get_eq_getElem, get_evaluator_nox_getElem]
      simp
    have hcompat : lenCompat none (presentShares sel) :=
      lenCompat_none_of_sameYLen
        (fun a ha b hb => by rw [hylen a ha, hylen b hb])
    rw [recover_nox_eq k sel hcompat]
    have hcard : ((presentShares sel).map ShareNoX.toBytes).toFinset.card = k := by
      rw [List.toFinset_card_of_nodup hnodup, List.length_map, hk]
    have hcond : ¬ (((presentShares sel).map ShareNoX.toBytes).toFinset = ∅
        ∨ ((presentShares sel).map ShareNoX.toBytes).toFinset.card < k) := by
      rw [not_or]
      constructor
      · intro h0
        rw [h0] at hcard
        simp at hcard
        omega
      · omega
    obtain ⟨pos, hpos1, hpos2⟩ := noxValues_pos sel 0
    have hlenv : (noxValues 0 sel).length = k := by
      rw [noxValues_length]
      exact hk
    have h255v : ∀ j, j < (noxValues 0 sel).length → pos j < 255 := by
      intro j hj
      obtain ⟨hge, hlt, hrest⟩ := hpos1 j hj
      omega
    have hval : ∀ j : Fin (noxValues 0 sel).length,
        (noxValues 0 sel).get j
          = ⟨gfOfNat (pos (j : Nat) + 1),
            (dealerPolys k secret rng).map
              (fun p => horner p (gfOfNat (pos (j : Nat) + 1)))⟩ := by
      intro j
      obtain ⟨hge, hlt, sh, hgd, hv⟩ := hpos1 (j : Nat) j.isLt
      have hp255 : pos (j : Nat) < 255 := h255v _ j.isLt
      have hmod : pos (j : Nat) % 256 = pos (j : Nat) :=
        Nat.mod_eq_of_lt (by omega)
      have hgd' : sel.getD (pos (j : Nat)) none = some sh := hgd
      have hsh := hsel (pos (j : Nat)) sh hgd'
      have hsh2 : sh = (⟨(dealerPolys k secret rng).map
          (fun p => horner p (gfOfNat (pos (j : Nat) + 1)))⟩ : ShareNoX P) := by
        rw [hsh, getD_eq_get _ _ _
          (show pos (j : Nat) < (get_evaluator (dealerPolys k secret rng)).length by
            rw [get_evaluator_nox_length]; exact hp255),
          List.get_eq_getElem, get_evaluator_nox_getElem]
      have hv' : (noxValues 0 sel).get j
          = ⟨gfOfNat (pos (j : Nat) % 256 + 1), sh.y⟩ := by
        rw [← getD_eq_get _ _ _ j.isLt]
        exact hv
      rw [hv', hsh2, hmod]
    have hinj : Function.Injective (fun j : Fin (noxValues 0 sel).length =>
        (⟨pos (j : Nat), h255v _ j.isLt⟩ : Fin 255)) := by
      intro j1 j2 he
      have hev : pos (j1 : Nat) = pos (j2 : Nat) := congrArg Fin.val he
      rcases Nat.lt_trichotomy (j1 : Nat) (j2 : Nat) with hlt | heq | hgt
      · exact absurd hev (by have := hpos2 _ _ hlt j2.isLt; omega)
      · exact Fin.ext heq
      · exact absurd hev (by have := hpos2 _ _ hgt j1.isLt; omega)
    have hitp := interpolate_dealer_points k hk1 secret rng (noxValues 0 sel)
      hlenv (fun j => ⟨pos (j : Nat), h255v _ j.isLt⟩) hinj hval
    rw [if_neg hcond, hitp]

/-- The dealer's 255 emitted shares (default build) for secret `[1]`,
threshold 2, and the constant RNG stream `1`. -/
def cxShares : List (ShareNoX 283) :=
  (dealer_rng (P := 283) 2 [⟨1, by norm_num⟩] (fun _ => ⟨⟨1, by norm_num⟩⟩)).getD []

set_option maxRecDepth 1000000 in
/-- C1 counterexample: in the default build, the 2-subset made of the dealer's
emitted shares number 1 and 2 (0-based), passed to `recover` packed into the
first two slots, recovers `[245]` instead of the dealt secret `[1]`. -/
theorem dealer_recover_roundtrip_counterexample :
    cxShares.length = 255
    ∧ cxShares.getD 1 ⟨[]⟩ ≠ cxShares.getD 2 ⟨[]⟩
    ∧ recover_nox (P := 283) 2
        [some (cxShares.getD 1 ⟨[]⟩), some (cxShares.getD 2 ⟨[]⟩)]
        = .ok [⟨245, by norm_num⟩]
    ∧ (⟨245, by norm_num⟩ : Fin 256) ≠ (⟨1, by norm_num⟩ : Fin 256) := by
  refine ⟨rfl, by decide, rfl, by decide⟩

set_option maxRecDepth 1000000 in
/-- Witness for `dealer_recover_roundtrip` at a concrete input: threshold 2,
secret `[1]`, constant RNG `1`, taking the first two emitted `share_x`
shares. -/
theorem dealer_recover_roundtrip_witness :
    recover_withx (P := 283) 2
      ((((dealer_rng_withx (P := 283) 2 [⟨1, by norm_num⟩]
          (fun _ => ⟨⟨1, by norm_num⟩⟩)).getD []).take 2).map some)
      = .ok [⟨1, by norm_num⟩] := by
  have h := (dealer_recover_roundtrip 283 2 (by norm_num) (by norm_num)
      [⟨1, by norm_num⟩] (by norm_num) (fun _ => ⟨⟨1, by norm_num⟩⟩)).1
    ((dealer_rng_withx (P := 283) 2 [⟨1, by norm_num⟩]
        (fun _ => ⟨⟨1, by norm_num⟩⟩)).getD [])
    (by rfl)
    (((dealer_rng_withx (P := 283) 2 [⟨1, by norm_num⟩]
        (fun _ => ⟨⟨1, by norm_num⟩⟩)).getD []).take 2)
    (List.take_sublist 2 _) (by rfl)
  exact h

/-- Witness for `recover_insufficient_iff` at a concrete input: two present
shares with equal bytes count once, so threshold 2 fails. -/
theorem recover_insufficient_iff_witness :
    recover_nox (P := 283) 2 [some ⟨[⟨1⟩]⟩, some ⟨[⟨1⟩]⟩]
      = .error .insufficientShares := by
  have h := recover_insufficient_iff 283 2 (by norm_num)
    [some ⟨[⟨1⟩]⟩, some ⟨[⟨1⟩]⟩] (by unfold sameYLen; decide)
  exact h.2 ⟨by decide, by decide⟩

/-- Witness for `recover_shares_threshold_one` at a concrete input: one
present share, threshold 1, two requested shares. -/
theorem recover_shares_threshold_one_witness :
    recover_shares (P := 283) 1 [some ⟨[⟨7⟩]⟩, none] 2
      = .ok (List.replicate 2 (⟨[⟨7⟩]⟩ : ShareNoX 283)) := by
  have h := recover_shares_threshold_one 283 2 [some ⟨[⟨7⟩]⟩, none]
    (by unfold sameYLen; decide) rfl (by decide)
  exact h.2 ⟨[⟨7⟩]⟩ rfl

/-- Witness for `recover_unequal_share_length` at a concrete input: y lengths
1 and 2. -/
theorem recover_unequal_share_length_witness :
    recover_nox (P := 283) 2 [some ⟨[⟨1⟩]⟩, some ⟨[⟨2⟩, ⟨3⟩]⟩]
      = .error .unequalShareLength
    ∧ recover_shares (P := 283) 2 [some ⟨[⟨1⟩]⟩, some ⟨[⟨2⟩, ⟨3⟩]⟩] 2
      = .error .unequalShareLength :=
  recover_unequal_share_length 283 2 2
    [some ⟨[⟨1⟩]⟩, some ⟨[⟨2⟩, ⟨3⟩]⟩] ⟨[⟨1⟩]⟩ [⟨[⟨2⟩, ⟨3⟩]⟩] rfl
    ⟨[⟨2⟩, ⟨3⟩]⟩ (by decide) (by decide)

end Ssskit
